import Mathlib

/-!
Verification of the pixelfuse-backend embed/extract codec (src/base-app.py).

The embedding is shallow: text is `List Char`, bytes are `Nat` (kept < 256
where arithmetic matters), the PIL/pyheif image library is an explicit
`Codec` parameter (its operations are external capabilities, per the spec's
component boundary), and every Python-level exception is an explicit
`Except` value.  Python string primitives used by the source
(`str.split("\n\n")`, `str.split(":", 1)`, `str.strip()`, base64
encode/decode, decimal rendering of indices) are implemented directly so
their behaviour is part of the development, not assumed.
-/

/-- UTF-8 byte length of a text, mirroring Python `len(s.encode('utf-8'))`. -/
def utf8Len (l : List Char) : Nat := (l.map Char.utf8Size).sum

/-- The standard base64 alphabet, as used by Python `base64.b64encode`. -/
def b64Alphabet : List Char :=
  "ABCDEFGHIJKLMNOPQRSTUVWXYZabcdefghijklmnopqrstuvwxyz0123456789+/".data

def b64Char (n : Nat) : Char := b64Alphabet.getD n 'A'

def b64IndexAux (c : Char) : List Char → Nat → Option Nat
  | [], _ => none
  | d :: rest, i => if d = c then some i else b64IndexAux c rest (i + 1)

/-- Position of a character in the base64 alphabet, `none` if absent. -/
def b64Index (c : Char) : Option Nat := b64IndexAux c b64Alphabet 0

/-- Python `base64.b64encode`, producing text (the encoder decodes it as
UTF-8 immediately, and base64 output is ASCII). -/
def base64Encode : List Nat → List Char
  | [] => []
  | [a] => [b64Char (a / 4), b64Char (a % 4 * 16), '=', '=']
  | [a, b] => [b64Char (a / 4), b64Char (a % 4 * 16 + b / 16), b64Char (b % 16 * 4), '=']
  | a :: b :: c :: rest =>
      b64Char (a / 4) :: b64Char (a % 4 * 16 + b / 16) ::
      b64Char (b % 16 * 4 + c / 64) :: b64Char (c % 64) :: base64Encode rest

def b64DecodeGroups : List Char → Option (List Nat)
  | [] => some []
  | s1 :: s2 :: s3 :: s4 :: rest =>
    match b64Index s1, b64Index s2 with
    | some v1, some v2 =>
      if s3 = '=' then
        if s4 = '=' ∧ rest = [] then some [v1 * 4 + v2 / 16] else none
      else
        match b64Index s3 with
        | some v3 =>
          if s4 = '=' then
            if rest = [] then some [v1 * 4 + v2 / 16, v2 % 16 * 16 + v3 / 4] else none
          else
            match b64Index s4, b64DecodeGroups rest with
            | some v4, some bs =>
                some ((v1 * 4 + v2 / 16) :: (v2 % 16 * 16 + v3 / 4) :: (v3 % 4 * 64 + v4) :: bs)
            | _, _ => none
        | none => none
    | _, _ => none
  | _ => none

/-- Python `base64.b64decode` (default `validate=False`): characters outside
the alphabet and `'='` are discarded first, then the length must be a
multiple of four ("Incorrect padding" otherwise) and the groups are decoded,
padding allowed only at the very end. -/
def base64Decode (l : List Char) : Option (List Nat) :=
  let filtered := l.filter (fun c => (b64Index c).isSome || c = '=')
  if filtered.length % 4 = 0 then b64DecodeGroups filtered else none

/-- The whitespace set of Python `str.strip()`. -/
def isPySpace (c : Char) : Bool :=
  c = ' ' || c = '\t' || c = '\n' || c = '\r' || c = '\x0b' || c = '\x0c'

/-- Python `str.strip()`. -/
def pyStrip (l : List Char) : List Char :=
  ((l.dropWhile isPySpace).reverse.dropWhile isPySpace).reverse

/-- Python `str.split("\n\n")`: cut at every leftmost, non-overlapping
occurrence of a double newline. -/
def splitDD : List Char → List (List Char)
  | [] => [[]]
  | '\n' :: '\n' :: rest => [] :: splitDD rest
  | c :: rest =>
    match splitDD rest with
    | [] => [[c]]
    | p :: ps => (c :: p) :: ps

/-- Python `s.split(":", 1)` when it yields two parts; `none` when `s` has
no colon (unpacking two variables then raises `ValueError`). -/
def splitColon1 : List Char → Option (List Char × List Char)
  | [] => none
  | c :: rest =>
    if c = ':' then some ([], rest)
    else (splitColon1 rest).map (fun p => (c :: p.1, p.2))

/-- Python substring test `pat in s`. -/
def containsSub (pat : List Char) : List Char → Bool
  | [] => pat.isEmpty
  | c :: rest => pat.isPrefixOf (c :: rest) || containsSub pat rest

/-- A text free of colons and newlines (enough for a filename to survive the
container's label grammar untouched). -/
def cleanChars (l : List Char) : Bool := l.all (fun c => c ≠ ':' && c ≠ '\n')

/-- A container part that the double-newline split leaves whole when a
separator follows it: it contains no double newline and does not end in a
newline. -/
def sepSafe : List Char → Bool
  | [] => true
  | c :: rest =>
    if c = '\n' ∧ (rest.head? = some '\n' ∨ rest = []) then false
    else sepSafe rest

def digitChar (n : Nat) : Char := Char.ofNat (48 + n % 10)

def natCharsAux : Nat → Nat → List Char
  | 0, _ => []
  | fuel + 1, n =>
    if n < 10 then [digitChar n] else natCharsAux fuel (n / 10) ++ [digitChar (n % 10)]

/-- Decimal rendering of a natural number (Python `f"{n}"`); the fuel `n + 1`
always suffices since a number has at most `n + 1` decimal digits. -/
def natChars (n : Nat) : List Char := natCharsAux (n + 1) n

def natStr (n : Nat) : String := ⟨natChars n⟩

example : base64Encode [77, 97, 110] = "TWFu".data := by decide
example : base64Encode [77, 97] = "TWE=".data := by decide
example : base64Encode [77] = "TQ==".data := by decide
example : base64Decode "TWFu".data = some [77, 97, 110] := by decide
example : base64Decode "TQ==".data = some [77] := by decide
example : base64Decode "AAA".data = none := by decide
example : splitDD "a\n\nb\n\n".data = ["a".data, "b".data, []] := by decide
example : splitDD "a\n\n\nb".data = ["a".data, "\nb".data] := by decide
example : splitColon1 "ab:cd:e".data = some ("ab".data, "cd:e".data) := by decide
example : pyStrip "\nAQ==".data = "AQ==".data := by decide
example : containsSub "heic".data "image 1 (x.heic)".data = true := by decide
example : containsSub "heic".data "image 1 (x.png)".data = false := by decide
example : natChars 12 = ['1', '2'] := by decide
example : natChars 0 = ['0'] := by decide

/-!
## Data model and external codec boundary

`PILImage` is the in-memory image of the PIL library: the embedding keeps
exactly what the source consults — the detected `format` attribute (which
Python may hold as `None`) and opaque pixel content.  `Codec` is the
external image library (PIL + pyheif): every call the source makes into it
is a field, and each can fail with a Python exception message.
-/

structure PILImage where
  format : Option String
  pixels : List Nat
deriving DecidableEq, Repr

structure UploadedFile where
  filename : String
  content_type : String
  rawBytes : List Nat
deriving DecidableEq, Repr

structure Codec where
  /-- `PIL.Image.open(io.BytesIO(content))`. -/
  imageOpen : List Nat → Except String PILImage
  /-- `image.save(buffered, format=format, quality=quality)`, returning the
  buffer's bytes. -/
  save : PILImage → Option String → Nat → Except String (List Nat)
  /-- `image.thumbnail((d, d))`. -/
  thumbnail : PILImage → Nat → PILImage
  /-- `pyheif.read_heif(content)` followed by `Image.frombytes(...)`. -/
  openHeic : List Nat → Except String PILImage
  /-- `img.save(path)` with the format inferred from the path's extension. -/
  saveExt : PILImage → String → Except String (List Nat)
  /-- Full-fidelity re-encode in the same format; used only by the
  spec-modelled `LosslessReencode`/passthrough policy revision, which is not
  part of src/base-app.py. -/
  saveLossless : PILImage → Option String → Except String (List Nat)

/-- A Python exception as the source distinguishes them: a fastapi
`HTTPException` (status code and detail) or any other exception rendered by
its message. -/
inductive Exn where
  | http (status : Nat) (detail : String)
  | err (msg : String)
deriving DecidableEq, Repr

/-- Python `str(e)`: a starlette `HTTPException` renders as
`"{status_code}: {detail}"`, other exceptions render their message. -/
def exnStr : Exn → String
  | .http s d => natStr s ++ ": " ++ d
  | .err m => m

def liftE : Except String α → Except Exn α
  | .ok a => .ok a
  | .error m => .error (.err m)

/-!
## Encoder (`/convert-embed/`, src/base-app.py lines 44-106)
-/

def max_total_size : Nat := 5 * 1024 * 1024

/-- Lines 26-29: helper converting an image to base64 text at a quality. -/
def encode_image_to_base64 (c : Codec) (image : PILImage) (format : Option String)
    (quality : Nat) : Except String (List Char) :=
  (c.save image format quality).map base64Encode

/-- Line 62: `file.filename.lower().endswith(".heic") or
file.content_type == "image/heic"`. -/
def isHeicUpload (file : UploadedFile) : Bool :=
  ".heic".data.isSuffixOf (file.filename.data.map Char.toLower)
    || file.content_type == "image/heic"

/-- Lines 74-85: the `while True` quality loop.  Re-encodes at the current
quality; while the projected total exceeds the budget and quality > 10,
drops quality by 5 and retries; otherwise stops.  Returns the final encoded
text, its UTF-8 size and the final quality. -/
def quality_search (c : Codec) (image : PILImage) (format : Option String)
    (total_size : Nat) (quality : Nat) : Except String (List Char × Nat × Nat) := do
  let encoded_image ← encode_image_to_base64 c image format quality
  let image_size := utf8Len encoded_image
  if h : total_size + image_size > max_total_size ∧ quality > 10 then
    quality_search c image format total_size (quality - 5)
  else
    pure (encoded_image, image_size, quality)
termination_by quality
decreasing_by omega

/-- The label of a block: `Image {idx + 1} ({filename})` — everything a
decoder finds before the block's first colon. -/
def labelChars (idx : Nat) (fn : List Char) : List Char :=
  "Image ".data ++ natChars (idx + 1) ++ " (".data ++ fn ++ [')']

/-- A block without its trailing blank line: `Image {idx + 1} ({filename}):`,
a newline, then the base64 payload. -/
def blockBody (idx : Nat) (fn payload : List Char) : List Char :=
  labelChars idx fn ++ ':' :: '\n' :: payload

/-- One block of the container: `f"Image {idx + 1} ({filename}):\n{encoded_image}\n\n"`
(line 95). -/
def blockText (idx : Nat) (fn : List Char) (payload : List Char) : List Char :=
  blockBody idx fn payload ++ ['\n', '\n']

/-- Lines 61-67: classify the upload and open it — the HEIC path via
pyheif (converting to JPEG), every other format via `Image.open` with the
format the codec detected. -/
def openUpload (c : Codec) (file : UploadedFile) : Except Exn (PILImage × Option String) :=
  if isHeicUpload file then do
    let image ← liftE (c.openHeic file.rawBytes)
    pure (image, some "JPEG")
  else do
    let image ← liftE (c.imageOpen file.rawBytes)
    pure (image, image.format)

/-- Lines 59-95: the body of the per-file loop, i.e. everything inside the
`try`.  Any failure — including the 5 MB `HTTPException` raised at line 88,
which is inside the `try` — escapes as an exception value. -/
def processFile (c : Codec) (total_size : Nat) (idx : Nat) (file : UploadedFile) :
    Except Exn (Nat × List Char) := do
  let r ← openUpload c file
  let image := c.thumbnail r.1 800
  let image_format := r.2
  let s ← liftE (quality_search c image image_format total_size 85)
  let encoded_image := s.1
  let image_size := s.2.1
  if total_size + image_size > max_total_size then
    Except.error (Exn.http 400
      "Cannot embed images without exceeding 5 MB limit. Try uploading fewer images or reducing their sizes.")
  else
    pure (total_size + image_size, blockText idx file.filename.data encoded_image)

/-- Lines 58-98: the `for idx, file in enumerate(files)` loop with its
`except Exception` clause, which wraps ANY exception from the body — the
5 MB `HTTPException` included — into the per-file
`"Cannot process image file: ..."` error. -/
def encodeLoop (c : Codec) :
    List UploadedFile → Nat → Nat → List Char → Except Exn (Nat × List Char)
  | [], total_size, _, text_content => .ok (total_size, text_content)
  | file :: rest, total_size, idx, text_content =>
    match processFile c total_size idx file with
    | .error e =>
      .error (.http 400
        ("Cannot process image file: " ++ file.filename ++ ". Error: " ++ exnStr e))
    | .ok t => encodeLoop c rest t.1 (idx + 1) (text_content ++ t.2)

/-- Lines 44-106: the `/convert-embed/` endpoint.  On success the value is
the text container (the body of the returned `.txt` file). -/
def convert_embed_images (c : Codec) (files : List UploadedFile)
    (output_file_name : String) : Except Exn (List Char) :=
  if files.length > 10 then
    .error (.http 400 "You can upload a maximum of 10 files.")
  else
    match encodeLoop c files 0 0
        ("Filename: ".data ++ output_file_name.data ++ ['\n', '\n']) with
    | .error e => .error e
    | .ok t => .ok t.2

/-!
## Decoder (`/extract-images/`, src/base-app.py lines 107-150)

The outcome records, besides the endpoint's result (the archive's entries,
each a file name `extracted_image_{i}.{ext}` with the bytes written for it),
the files present in the working directory when the request ends and whether
the `clean_up_files` background task was scheduled (line 141: only after the
zip was built — never on an error exit).
-/

deriving instance DecidableEq for Except

structure DecodeOutcome where
  result : Except Exn (List (String × List Nat))
  written : List String
  cleanupScheduled : Bool
deriving DecidableEq, Repr

def output_dir : String := "extracted_images"

/-- Line 119: `block.startswith("Image")`. -/
def startsWithImage (block : List Char) : Bool := "Image".data.isPrefixOf block

/-- Line 126: `img_format = img.format.lower() or "jpeg"`.  A `None` format
raises `AttributeError` (there is no `lower` on `None`); only an *empty*
format string falls back to `"jpeg"`. -/
def imgFormatExt : Option String → Except Exn String
  | none => .error (.err "AttributeError: NoneType object has no attribute lower")
  | some f =>
    let lf : String := ⟨f.data.map Char.toLower⟩
    .ok (if lf = "" then "jpeg" else lf)

/-- Lines 121-129: the `try` body for one retained block: split once on the
first colon, strip, base64-decode, open with the codec, derive the
extension, and re-save through the codec. -/
def processBlock (c : Codec) (idx : Nat) (block : List Char) :
    Except Exn (String × List Nat) := do
  let p ← match splitColon1 block with
    | none => Except.error (Exn.err "not enough values to unpack (expected 2, got 1)")
    | some p => pure p
  let encoded_img := pyStrip p.2
  let img_data ← match base64Decode encoded_img with
    | none => Except.error (Exn.err "Incorrect padding")
    | some d => pure d
  let img ← liftE (c.imageOpen img_data)
  let img_format ← imgFormatExt img.format
  let saved ← liftE (c.saveExt img img_format)
  pure ("extracted_image_" ++ natStr (idx + 1) ++ "." ++ img_format, saved)

/-- Lines 118-143: the `for idx, block in enumerate(decoded_images)` loop,
the zip step and the background-task scheduling.  `idx` counts EVERY block
of the double-newline split (the `Filename:` header included), not just the
image blocks. -/
def decodeLoop (c : Codec) :
    List (List Char) → Nat → List (String × List Nat) → DecodeOutcome
  | [], _, extracted =>
    { result := .ok extracted
      written := extracted.map (fun e => output_dir ++ "/" ++ e.1)
        ++ [output_dir ++ "/extracted_images.zip"]
      cleanupScheduled := true }
  | block :: rest, idx, extracted =>
    if startsWithImage block then
      match processBlock c idx block with
      | .error e =>
        { result := .error (.http 400
            ("Error processing image " ++ natStr (idx + 1) ++ ": " ++ exnStr e))
          written := extracted.map (fun e => output_dir ++ "/" ++ e.1)
          cleanupScheduled := false }
      | .ok entry => decodeLoop c rest (idx + 1) (extracted ++ [entry])
    else decodeLoop c rest (idx + 1) extracted

/-- Lines 107-143: the `/extract-images/` endpoint. -/
def extract_images_from_text (c : Codec) (content : List Char) : DecodeOutcome :=
  decodeLoop c (splitDD content) 0 []

/-!
## The container grammar as one closed form
-/

def blocksFrom : Nat → List (String × List Char) → List Char
  | _, [] => []
  | idx, it :: rest => blockText idx it.1.data it.2 ++ blocksFrom (idx + 1) rest

/-- `Filename: {name}\n\n` then `Image {i} ({filename}):\n{base64}\n\n` for
each embedded image in order. -/
def containerText (name : String) (items : List (String × List Char)) : List Char :=
  "Filename: ".data ++ name.data ++ ['\n', '\n'] ++ blocksFrom 0 items

/-!
## Properties of the base64 implementation
-/

theorem b64Index_b64Char : ∀ n, n < 64 → b64Index (b64Char n) = some n := by decide

theorem b64Char_mem : ∀ n, n < 64 → b64Char n ∈ b64Alphabet := by decide

theorem b64Char_ne_pad : ∀ n, n < 64 → b64Char n ≠ '=' := by decide

theorem b64Alphabet_ascii :
    ∀ c ∈ b64Alphabet, c.utf8Size = 1 ∧ isPySpace c = false ∧ c ≠ '\n' ∧ c ≠ ':' := by
  decide

theorem pad_ascii : '='.utf8Size = 1 ∧ isPySpace '=' = false ∧ '=' ≠ '\n' ∧ '=' ≠ ':' := by
  decide

theorem b64IndexAux_isSome (c : Char) :
    ∀ (l : List Char) (i : Nat), c ∈ l → (b64IndexAux c l i).isSome := by
  intro l
  induction l with
  | nil => intro i h; cases h
  | cons d rest ih =>
    intro i h
    by_cases hd : d = c
    · simp [b64IndexAux, hd]
    · rcases List.mem_cons.mp h with rfl | h
      · exact absurd rfl hd
      · simpa [b64IndexAux, hd] using ih (i + 1) h

theorem b64Index_isSome (c : Char) (h : c ∈ b64Alphabet) : (b64Index c).isSome :=
  b64IndexAux_isSome c b64Alphabet 0 h

theorem mem_base64Encode :
    ∀ (bs : List Nat), (∀ x ∈ bs, x < 256) →
      ∀ c ∈ base64Encode bs, c ∈ b64Alphabet ∨ c = '='
  | [] => by intro _ c hc; simp [base64Encode] at hc
  | [a] => by
    intro hb c hc
    have ha : a < 256 := hb a (by simp)
    simp only [base64Encode, List.mem_cons, List.not_mem_nil, or_false] at hc
    rcases hc with rfl | rfl | rfl | rfl
    · exact Or.inl (b64Char_mem _ (by omega))
    · exact Or.inl (b64Char_mem _ (by omega))
    · exact Or.inr rfl
    · exact Or.inr rfl
  | [a, b] => by
    intro hb c hc
    have ha : a < 256 := hb a (by simp)
    have hbb : b < 256 := hb b (by simp)
    simp only [base64Encode, List.mem_cons, List.not_mem_nil, or_false] at hc
    rcases hc with rfl | rfl | rfl | rfl
    · exact Or.inl (b64Char_mem _ (by omega))
    · exact Or.inl (b64Char_mem _ (by omega))
    · exact Or.inl (b64Char_mem _ (by omega))
    · exact Or.inr rfl
  | a :: b :: d :: rest => by
    intro hb c hc
    have ha : a < 256 := hb a (by simp)
    have hbb : b < 256 := hb b (by simp)
    have hd : d < 256 := hb d (by simp)
    have ih := mem_base64Encode rest (fun x hx => hb x (by simp [hx]))
    simp only [base64Encode, List.mem_cons] at hc
    rcases hc with rfl | rfl | rfl | rfl | hc
    · exact Or.inl (b64Char_mem _ (by omega))
    · exact Or.inl (b64Char_mem _ (by omega))
    · exact Or.inl (b64Char_mem _ (by omega))
    · exact Or.inl (b64Char_mem _ (by omega))
    · exact ih c hc

theorem length_base64Encode :
    ∀ (bs : List Nat), (base64Encode bs).length = 4 * ((bs.length + 2) / 3)
  | [] => by simp [base64Encode]
  | [a] => by simp [base64Encode]
  | [a, b] => by simp [base64Encode]
  | a :: b :: c :: rest => by
    have ih := length_base64Encode rest
    simp only [base64Encode, List.length_cons, ih]
    omega

theorem utf8Len_eq_length_of_ascii :
    ∀ (l : List Char), (∀ c ∈ l, c.utf8Size = 1) → utf8Len l = l.length := by
  intro l
  induction l with
  | nil => intro _; rfl
  | cons c rest ih =>
    intro h
    simp only [utf8Len, List.map_cons, List.sum_cons, h c (by simp), List.length_cons]
    have := ih (fun d hd => h d (by simp [hd]))
    simp only [utf8Len] at this
    omega

theorem base64Encode_ascii (bs : List Nat) (hb : ∀ x ∈ bs, x < 256) :
    ∀ c ∈ base64Encode bs, c.utf8Size = 1 := by
  intro c hc
  rcases mem_base64Encode bs hb c hc with h | h
  · exact (b64Alphabet_ascii c h).1
  · exact h ▸ pad_ascii.1

theorem utf8Len_base64Encode (bs : List Nat) (hb : ∀ x ∈ bs, x < 256) :
    utf8Len (base64Encode bs) = 4 * ((bs.length + 2) / 3) := by
  rw [utf8Len_eq_length_of_ascii _ (base64Encode_ascii bs hb), length_base64Encode]

theorem base64Encode_no_specials (bs : List Nat) (hb : ∀ x ∈ bs, x < 256) :
    ∀ c ∈ base64Encode bs, isPySpace c = false ∧ c ≠ '\n' ∧ c ≠ ':' := by
  intro c hc
  rcases mem_base64Encode bs hb c hc with h | h
  · exact (b64Alphabet_ascii c h).2
  · exact h ▸ pad_ascii.2

theorem base64Encode_filter (bs : List Nat) (hb : ∀ x ∈ bs, x < 256) :
    (base64Encode bs).filter (fun c => (b64Index c).isSome || c = '=') = base64Encode bs := by
  rw [List.filter_eq_self]
  intro c hc
  rcases mem_base64Encode bs hb c hc with h | h
  · simp [b64Index_isSome c h]
  · simp [h]

theorem b64DecodeGroups_encode :
    ∀ (bs : List Nat), (∀ x ∈ bs, x < 256) →
      b64DecodeGroups (base64Encode bs) = some bs
  | [], _ => rfl
  | [a], hb => by
    have ha : a < 256 := hb a (by simp)
    have h1 : a / 4 < 64 := by omega
    have h2 : a % 4 * 16 < 64 := by omega
    have e1 : a / 4 * 4 + a % 4 * 16 / 16 = a := by omega
    simp only [base64Encode, b64DecodeGroups, b64Index_b64Char _ h1, b64Index_b64Char _ h2,
      if_pos rfl, and_self, reduceIte, e1]
  | [a, b], hb => by
    have ha : a < 256 := hb a (by simp)
    have hbb : b < 256 := hb b (by simp)
    have h1 : a / 4 < 64 := by omega
    have h2 : a % 4 * 16 + b / 16 < 64 := by omega
    have h3 : b % 16 * 4 < 64 := by omega
    have e1 : a / 4 * 4 + (a % 4 * 16 + b / 16) / 16 = a := by omega
    have e2 : (a % 4 * 16 + b / 16) % 16 * 16 + b % 16 * 4 / 4 = b := by omega
    simp only [base64Encode, b64DecodeGroups, b64Index_b64Char _ h1, b64Index_b64Char _ h2,
      b64Index_b64Char _ h3, if_neg (b64Char_ne_pad _ h3), if_pos rfl, reduceIte, e1, e2]
  | a :: b :: c :: rest, hb => by
    have ha : a < 256 := hb a (by simp)
    have hbb : b < 256 := hb b (by simp)
    have hc : c < 256 := hb c (by simp)
    have h1 : a / 4 < 64 := by omega
    have h2 : a % 4 * 16 + b / 16 < 64 := by omega
    have h3 : b % 16 * 4 + c / 64 < 64 := by omega
    have h4 : c % 64 < 64 := by omega
    have e1 : a / 4 * 4 + (a % 4 * 16 + b / 16) / 16 = a := by omega
    have e2 : (a % 4 * 16 + b / 16) % 16 * 16 + (b % 16 * 4 + c / 64) / 4 = b := by omega
    have e3 : (b % 16 * 4 + c / 64) % 4 * 64 + c % 64 = c := by omega
    have ih := b64DecodeGroups_encode rest (fun x hx => hb x (by simp [hx]))
    simp only [base64Encode, b64DecodeGroups, b64Index_b64Char _ h1, b64Index_b64Char _ h2,
      b64Index_b64Char _ h3, b64Index_b64Char _ h4, if_neg (b64Char_ne_pad _ h3),
      if_neg (b64Char_ne_pad _ h4), ih, e1, e2, e3]

/-- Decoding inverts encoding: the container payloads round-trip. -/
theorem base64_roundtrip (bs : List Nat) (hb : ∀ x ∈ bs, x < 256) :
    base64Decode (base64Encode bs) = some bs := by
  unfold base64Decode
  simp only [base64Encode_filter bs hb, length_base64Encode]
  rw [if_pos (by omega)]
  exact b64DecodeGroups_encode bs hb

/-!
## The quality search, characterised
-/

theorem except_bind_ok {α β ε : Type} (a : α) (f : α → Except ε β) :
    (Except.ok a : Except ε α) >>= f = f a := rfl

theorem except_pure {α ε : Type} (a : α) : (pure a : Except ε α) = Except.ok a := rfl

def qList : Nat → List Nat
  | 0 => [10]
  | k + 1 => (10 + 5 * (k + 1)) :: qList k

example : qList 15 = [85, 80, 75, 70, 65, 60, 55, 50, 45, 40, 35, 30, 25, 20, 15, 10] := by decide

theorem quality_search_eq_find (c : Codec) (image : PILImage) (format : Option String)
    (total_size : Nat) (bytes : Nat → List Nat)
    (hsave : ∀ q, c.save image format q = .ok (bytes q)) :
    ∀ k, quality_search c image format total_size (10 + 5 * k) =
      match (qList k).find?
          (fun q => decide (total_size + utf8Len (base64Encode (bytes q)) ≤ max_total_size)) with
      | some q => .ok (base64Encode (bytes q), utf8Len (base64Encode (bytes q)), q)
      | none => .ok (base64Encode (bytes 10), utf8Len (base64Encode (bytes 10)), 10) := by
  intro k
  induction k with
  | zero =>
    rw [quality_search]
    simp only [encode_image_to_base64, hsave, Except.map, except_bind_ok, qList, List.find?]
    by_cases hfit : total_size + utf8Len (base64Encode (bytes 10)) ≤ max_total_size
    · simp [hfit, except_pure]
    · simp [hfit, except_pure]
  | succ n ih =>
    rw [quality_search]
    simp only [encode_image_to_base64, hsave, Except.map, except_bind_ok, qList, List.find?]
    by_cases hfit : total_size + utf8Len (base64Encode (bytes (10 + 5 * (n + 1)))) ≤ max_total_size
    · simp only [hfit, decide_True]
      rw [dif_neg (by omega :
        ¬(total_size + utf8Len (base64Encode (bytes (10 + 5 * (n + 1)))) > max_total_size
          ∧ 10 + 5 * (n + 1) > 10))]
      exact except_pure _
    · have harith : 10 + 5 * (n + 1) - 5 = 10 + 5 * n := by omega
      simp only [hfit, decide_False]
      rw [dif_pos ⟨by omega, by omega⟩, harith, ih]

/-- The search as run by the encoder: start at quality 85, i.e. `qList 15`. -/
theorem quality_search_from_85 (c : Codec) (image : PILImage) (format : Option String)
    (total_size : Nat) (bytes : Nat → List Nat)
    (hsave : ∀ q, c.save image format q = .ok (bytes q)) :
    quality_search c image format total_size 85 =
      match ([85, 80, 75, 70, 65, 60, 55, 50, 45, 40, 35, 30, 25, 20, 15, 10].find?
          (fun q => decide (total_size + utf8Len (base64Encode (bytes q)) ≤ max_total_size))) with
      | some q => .ok (base64Encode (bytes q), utf8Len (base64Encode (bytes q)), q)
      | none => .ok (base64Encode (bytes 10), utf8Len (base64Encode (bytes 10)), 10) := by
  have h := quality_search_eq_find c image format total_size bytes hsave 15
  have e : (10 : Nat) + 5 * 15 = 85 := by norm_num
  rw [e] at h
  rw [h]
  have : qList 15 = [85, 80, 75, 70, 65, 60, 55, 50, 45, 40, 35, 30, 25, 20, 15, 10] := by decide
  rw [this]

/-! ## Parsing a well-formed container -/

theorem dropWhile_eq_self_of_all (p : Char → Bool) (l : List Char)
    (h : ∀ c ∈ l, p c = false) : l.dropWhile p = l := by
  cases l with
  | nil => rfl
  | cons c rest => simp [List.dropWhile_cons, h c (by simp)]

theorem pyStrip_newline (l : List Char) (h : ∀ c ∈ l, isPySpace c = false) :
    pyStrip ('\n' :: l) = l := by
  unfold pyStrip
  rw [List.dropWhile_cons]
  simp only [show isPySpace '\n' = true from rfl, if_true]
  rw [dropWhile_eq_self_of_all _ l h,
    dropWhile_eq_self_of_all _ l.reverse (fun c hc => h c (List.mem_reverse.mp hc))]
  exact List.reverse_reverse l

theorem sepSafe_of_no_newline (l : List Char) (h : ∀ c ∈ l, c ≠ '\n') : sepSafe l = true := by
  induction l with
  | nil => rfl
  | cons c rest ih =>
    have hc := h c (by simp)
    simp only [sepSafe, hc, false_and, if_false]
    exact ih (fun d hd => h d (by simp [hd]))

theorem sepSafe_block (a b : List Char) (ha : ∀ c ∈ a, c ≠ '\n') (hb : ∀ c ∈ b, c ≠ '\n')
    (hne : b ≠ []) : sepSafe (a ++ '\n' :: b) = true := by
  induction a with
  | nil =>
    cases b with
    | nil => exact absurd rfl hne
    | cons d bs =>
      have hd := hb d (by simp)
      simp only [List.nil_append, sepSafe, List.head?_cons]
      rw [if_neg (by simp [hd])]
      exact sepSafe_of_no_newline _ hb
  | cons c a ih =>
    have hc := ha c (by simp)
    simp only [List.cons_append, sepSafe, hc, false_and, if_false]
    exact ih (fun d hd => ha d (by simp [hd]))

theorem splitDD_sep (p rest : List Char) (h : sepSafe p = true) :
    splitDD (p ++ '\n' :: '\n' :: rest) = p :: splitDD rest := by
  induction p with
  | nil => simpa using splitDD.eq_2 rest
  | cons c p ih =>
    have hcond : ¬(c = '\n' ∧ (p.head? = some '\n' ∨ p = [])) := by
      intro hcc
      rw [sepSafe, if_pos hcc] at h
      exact Bool.false_ne_true h
    have hp : sepSafe p = true := by
      rw [sepSafe, if_neg hcond] at h
      exact h
    have hne : ∀ (r1 : List Char), c = '\n' → p ++ '\n' :: '\n' :: rest = '\n' :: r1 → False := by
      intro r1 hcnl happ
      cases p with
      | nil => exact hcond ⟨hcnl, Or.inr rfl⟩
      | cons d p2 =>
        rw [List.cons_append] at happ
        injection happ with h1 _
        exact hcond ⟨hcnl, Or.inl (by simp [h1])⟩
    rw [List.cons_append, splitDD.eq_3 c _ hne, ih hp]

theorem splitColon1_append (a b : List Char) (h : ':' ∉ a) :
    splitColon1 (a ++ ':' :: b) = some (a, b) := by
  induction a with
  | nil => simp [splitColon1]
  | cons c a ih =>
    have hc : ¬(c = ':') := fun e => h (by simp [e])
    have ha : ':' ∉ a := fun m => h (by simp [m])
    simp [splitColon1, hc, ih ha]

theorem digitChar_mod (n : Nat) : digitChar n = digitChar (n % 10) := by
  simp [digitChar, Nat.mod_mod_of_dvd n (dvd_refl 10)]

theorem digitChar_props : ∀ k, k < 10 → digitChar k ≠ '\n' ∧ digitChar k ≠ ':' := by decide

theorem natCharsAux_props :
    ∀ (fuel n : Nat), ∀ c ∈ natCharsAux fuel n, c ≠ '\n' ∧ c ≠ ':'
  | 0, n => by intro c hc; simp [natCharsAux] at hc
  | fuel + 1, n => by
    intro c hc
    by_cases h : n < 10
    · simp only [natCharsAux, if_pos h, List.mem_singleton] at hc
      subst hc
      rw [digitChar_mod]
      exact digitChar_props _ (Nat.mod_lt _ (by omega))
    · simp only [natCharsAux, if_neg h, List.mem_append, List.mem_singleton] at hc
      rcases hc with hc | hc
      · exact natCharsAux_props fuel (n / 10) c hc
      · subst hc
        rw [digitChar_mod]
        exact digitChar_props _ (Nat.mod_lt _ (by omega))

theorem natChars_props (n : Nat) : ∀ c ∈ natChars n, c ≠ '\n' ∧ c ≠ ':' :=
  natCharsAux_props (n + 1) n

/-! ## Inverting a successful encode -/

theorem except_bind_err {α β ε : Type} (e : ε) (f : α → Except ε β) :
    (Except.error e : Except ε α) >>= f = .error e := rfl

theorem except_bind_ok_inv {α β ε : Type} {x : Except ε α} {k : α → Except ε β} {b : β}
    (h : (x >>= k) = .ok b) : ∃ a, x = .ok a ∧ k a = .ok b := by
  cases x with
  | error e => exact absurd (except_bind_err e k ▸ h) (by simp)
  | ok a => exact ⟨a, rfl, h⟩

theorem liftE_ok_inv {α : Type} {x : Except String α} {a : α}
    (h : liftE x = .ok a) : x = .ok a := by
  cases x with
  | error e => simp [liftE] at h
  | ok b => simpa [liftE] using h

theorem quality_search_ok_inv (c : Codec) (image : PILImage) (format : Option String) :
    ∀ (q : Nat) (total : Nat) (res : List Char × Nat × Nat),
      quality_search c image format total q = .ok res →
      ∃ bs q2, c.save image format q2 = .ok bs ∧ res.1 = base64Encode bs ∧
        res.2.1 = utf8Len (base64Encode bs) := by
  intro q
  induction q using Nat.strong_induction_on with
  | _ q ih =>
    intro total res hok
    rw [quality_search] at hok
    simp only [encode_image_to_base64] at hok
    cases hsv : c.save image format q with
    | error e => rw [hsv] at hok; simp [Except.map, except_bind_err] at hok
    | ok bs =>
      rw [hsv] at hok
      simp only [Except.map, except_bind_ok] at hok
      by_cases hcond : total + utf8Len (base64Encode bs) > max_total_size ∧ q > 10
      · rw [dif_pos hcond] at hok
        exact ih (q - 5) (by omega) total res hok
      · rw [dif_neg hcond] at hok
        rw [except_pure] at hok
        obtain rfl := (Except.ok.injEq _ _).mp hok
        exact ⟨bs, q, hsv, rfl, rfl⟩

theorem processFile_ok_inv (c : Codec) (total idx : Nat) (file : UploadedFile)
    (out : Nat × List Char) (hok : processFile c total idx file = .ok out) :
    ∃ E, out.1 = total + utf8Len E ∧ out.1 ≤ max_total_size ∧
      out.2 = blockText idx file.filename.data E ∧
      ∃ bs q2 img fmt, c.save img fmt q2 = .ok bs ∧ E = base64Encode bs := by
  unfold processFile at hok
  obtain ⟨r, hr, hok2⟩ := except_bind_ok_inv hok
  obtain ⟨s, hs, hok3⟩ := except_bind_ok_inv hok2
  have hqs := quality_search_ok_inv c (c.thumbnail r.1 800) r.2 85 total s (liftE_ok_inv hs)
  obtain ⟨bs, q2, hsave, hs1, hs2⟩ := hqs
  by_cases hover : total + s.2.1 > max_total_size
  · rw [if_pos hover] at hok3
    simp at hok3
  · rw [if_neg hover] at hok3
    rw [except_pure] at hok3
    obtain rfl := (Except.ok.injEq _ _).mp hok3
    refine ⟨s.1, by simp [hs1, hs2], ?_, rfl,
      bs, q2, c.thumbnail r.1 800, r.2, hsave, hs1⟩
    simp only [hs1, hs2] at hover ⊢
    omega

def payloadSizes (items : List (String × List Char)) : Nat :=
  (items.map (fun it => utf8Len it.2)).sum

theorem encodeLoop_ok (c : Codec) :
    ∀ (files : List UploadedFile) (total idx : Nat) (text : List Char)
      (final : Nat × List Char),
      encodeLoop c files total idx text = .ok final →
      ∃ items : List (String × List Char),
        items.length = files.length ∧
        final.2 = text ++ blocksFrom idx items ∧
        final.1 = total + payloadSizes items ∧
        (files = [] ∨ final.1 ≤ max_total_size) ∧
        (∀ i (hi : i < items.length) (hf : i < files.length),
          (items.get ⟨i, hi⟩).1 = (files.get ⟨i, hf⟩).filename ∧
          ∃ bs q2 img fmt, c.save img fmt q2 = .ok bs ∧
            (items.get ⟨i, hi⟩).2 = base64Encode bs) := by
  intro files
  induction files with
  | nil =>
    intro total idx text final hok
    simp only [encodeLoop] at hok
    obtain rfl := (Except.ok.injEq _ _).mp hok
    refine ⟨[], rfl, by simp [blocksFrom], by simp [payloadSizes], Or.inl rfl, ?_⟩
    intro i hi
    exact absurd hi (by simp)
  | cons f fs ih =>
    intro total idx text final hok
    simp only [encodeLoop] at hok
    cases hpf : processFile c total idx f with
    | error e => rw [hpf] at hok; simp at hok
    | ok t =>
      rw [hpf] at hok
      obtain ⟨E, ht1, hle, ht2, bs, q2, img, fmt, hsave, hE⟩ :=
        processFile_ok_inv c total idx f t hpf
      obtain ⟨items, hlen, htext, hsz, hbound, hprov⟩ := ih t.1 (idx + 1) (text ++ t.2) final hok
      refine ⟨(f.filename, E) :: items, by simp [hlen], ?_, ?_, ?_, ?_⟩
      · rw [htext, ht2]
        simp [blocksFrom, blockText, List.append_assoc]
      · rw [hsz, ht1]
        simp only [payloadSizes, List.map_cons, List.sum_cons]
        omega
      · rcases hbound with rfl | hb
        · obtain rfl : items = [] := by simpa using hlen
          right
          rw [hsz]
          simpa [payloadSizes, ht1] using hle
        · exact Or.inr hb
      · intro i hi hf
        cases i with
        | zero => exact ⟨rfl, bs, q2, img, fmt, hsave, hE⟩
        | succ j =>
          exact hprov j (by simpa using hi) (by simpa using hf)

theorem convert_ok_inv (c : Codec) (files : List UploadedFile) (name : String)
    (text : List Char) (hok : convert_embed_images c files name = .ok text) :
    files.length ≤ 10 ∧
    ∃ items : List (String × List Char),
      items.length = files.length ∧
      text = containerText name items ∧
      payloadSizes items ≤ max_total_size ∧
      (∀ i (hi : i < items.length) (hf : i < files.length),
        (items.get ⟨i, hi⟩).1 = (files.get ⟨i, hf⟩).filename ∧
        ∃ bs q2 img fmt, c.save img fmt q2 = .ok bs ∧
          (items.get ⟨i, hi⟩).2 = base64Encode bs) := by
  unfold convert_embed_images at hok
  by_cases hn : files.length > 10
  · rw [if_pos hn] at hok; simp at hok
  · rw [if_neg hn] at hok
    refine ⟨by omega, ?_⟩
    cases hloop : encodeLoop c files 0 0 ("Filename: ".data ++ name.data ++ ['\n', '\n']) with
    | error e => rw [hloop] at hok; simp at hok
    | ok t =>
      rw [hloop] at hok
      obtain rfl := (Except.ok.injEq _ _).mp hok
      obtain ⟨items, hlen, htext, hsz, hbound, hprov⟩ :=
        encodeLoop_ok c files 0 0 _ t hloop
      refine ⟨items, hlen, ?_, ?_, hprov⟩
      · rw [htext]
        simp [containerText, List.append_assoc]
      · rcases hbound with rfl | hb
        · obtain rfl : items = [] := by simpa using hlen
          simp [payloadSizes]
        · omega

/-! ## Decoding a well-formed container (the src decoder) -/

/-- An embedded item whose filename survives the label grammar and whose
payload is genuine base64 of nonempty byte content — exactly what is needed
for the double-newline split and the per-block parse to recover it. -/
def CleanItem (it : String × List Char) : Prop :=
  (∀ ch ∈ it.1.data, ch ≠ ':' ∧ ch ≠ '\n') ∧
  ∃ bs, it.2 = base64Encode bs ∧ (∀ x ∈ bs, x < 256) ∧ bs ≠ []

/-- What the source decoder needs of one embedded item to extract it without
error: a clean filename, and a payload that is genuine base64 of nonempty
byte content the codec can open, format-detect and re-save. -/
def GoodItem (c : Codec) (it : String × List Char) : Prop :=
  (∀ ch ∈ it.1.data, ch ≠ ':' ∧ ch ≠ '\n') ∧
  ∃ bs img ext saved,
    it.2 = base64Encode bs ∧ (∀ x ∈ bs, x < 256) ∧ bs ≠ [] ∧
    c.imageOpen bs = .ok img ∧ imgFormatExt img.format = .ok ext ∧
    c.saveExt img ext = .ok saved

/-- The block list a well-formed container splits into, between the header
and the trailing empty piece. -/
def bodiesFrom : Nat → List (String × List Char) → List (List Char)
  | _, [] => []
  | idx, it :: rest => blockBody idx it.1.data it.2 :: bodiesFrom (idx + 1) rest

theorem labelChars_clean (idx : Nat) (fn : List Char)
    (hfn : ∀ ch ∈ fn, ch ≠ ':' ∧ ch ≠ '\n') :
    ∀ ch ∈ labelChars idx fn, ch ≠ ':' ∧ ch ≠ '\n' := by
  intro ch hch
  simp only [labelChars, List.append_assoc, List.mem_append, List.mem_singleton] at hch
  have h1 : ∀ d ∈ ['I', 'm', 'a', 'g', 'e', ' '], d ≠ ':' ∧ d ≠ '\n' := by decide
  have h2 : ∀ d ∈ [' ', '('], d ≠ ':' ∧ d ≠ '\n' := by decide
  rcases hch with hch | hch | hch | hch | hch
  · exact h1 ch hch
  · have := natChars_props (idx + 1) ch hch
    exact ⟨this.2, this.1⟩
  · exact h2 ch hch
  · exact hfn ch hch
  · subst hch; exact ⟨by decide, by decide⟩

theorem sepSafe_blockBody (idx : Nat) (fn payload : List Char)
    (hfn : ∀ ch ∈ fn, ch ≠ ':' ∧ ch ≠ '\n')
    (hpay : ∀ ch ∈ payload, ch ≠ '\n') (hne : payload ≠ []) :
    sepSafe (blockBody idx fn payload) = true := by
  have he : blockBody idx fn payload = (labelChars idx fn ++ [':']) ++ '\n' :: payload := by
    simp [blockBody]
  rw [he]
  apply sepSafe_block
  · intro ch hch
    simp only [List.mem_append, List.mem_singleton] at hch
    rcases hch with hch | hch
    · exact (labelChars_clean idx fn hfn ch hch).2
    · subst hch; decide
  · exact hpay
  · exact hne

theorem goodItem_clean (c : Codec) (it : String × List Char) (h : GoodItem c it) :
    CleanItem it := by
  obtain ⟨hfn, bs, img, ext, saved, hpay, hbs, hbsne, _, _, _⟩ := h
  exact ⟨hfn, bs, hpay, hbs, hbsne⟩

theorem splitDD_blocksFrom :
    ∀ (items : List (String × List Char)) (idx : Nat),
      (∀ it ∈ items, CleanItem it) →
      splitDD (blocksFrom idx items) = bodiesFrom idx items ++ [[]] := by
  intro items
  induction items with
  | nil => intro idx _; rfl
  | cons it rest ih =>
    intro idx hgood
    obtain ⟨hfn, bs, hpay, hbs, hbsne⟩ := hgood it (by simp)
    have hpayc : ∀ ch ∈ it.2, ch ≠ '\n' := by
      intro ch hch
      rw [hpay] at hch
      exact (base64Encode_no_specials bs hbs ch hch).2.1
    have hpayne : it.2 ≠ [] := by
      rw [hpay]
      intro he
      apply hbsne
      cases bs with
      | nil => rfl
      | cons x xs =>
        exfalso
        have hlen := length_base64Encode (x :: xs)
        rw [he] at hlen
        simp only [List.length_nil, List.length_cons] at hlen
        omega
    have hsafe := sepSafe_blockBody idx it.1.data it.2 hfn hpayc hpayne
    simp only [blocksFrom, bodiesFrom, blockText]
    rw [List.append_assoc]
    have : (['\n', '\n'] : List Char) ++ blocksFrom (idx + 1) rest
        = '\n' :: '\n' :: blocksFrom (idx + 1) rest := rfl
    rw [this, splitDD_sep _ _ hsafe, ih (idx + 1) (fun x hx => hgood x (by simp [hx]))]
    rfl

theorem isPrefixOf_self_append (l t : List Char) : l.isPrefixOf (l ++ t) = true := by
  induction l with
  | nil => simp
  | cons c rest ih => simp [List.isPrefixOf_cons₂, ih]

theorem image_prefix_blockBody (idx : Nat) (fn payload : List Char) :
    startsWithImage (blockBody idx fn payload) = true := by
  unfold startsWithImage
  have he : blockBody idx fn payload
      = "Image".data ++ (' ' :: (natChars (idx + 1) ++ " (".data ++ fn ++ [')']
          ++ ':' :: '\n' :: payload)) := by
    simp [blockBody, labelChars]
  rw [he]
  exact isPrefixOf_self_append _ _

theorem startsWithImage_F (rest : List Char) : startsWithImage ('F' :: rest) = false := rfl

theorem image_not_prefix_header (name : String) :
    startsWithImage ("Filename: ".data ++ name.data) = false := rfl

theorem image_not_prefix_nil : startsWithImage ([] : List Char) = false := rfl

theorem processBlock_body (c : Codec) (idx bidx : Nat) (fn : List Char) (bs : List Nat)
    (hfn : ∀ ch ∈ fn, ch ≠ ':' ∧ ch ≠ '\n') (hbs : ∀ x ∈ bs, x < 256)
    (img : PILImage) (hopen : c.imageOpen bs = .ok img)
    (ext : String) (hext : imgFormatExt img.format = .ok ext)
    (saved : List Nat) (hsaved : c.saveExt img ext = .ok saved) :
    processBlock c idx (blockBody bidx fn (base64Encode bs)) =
      .ok ("extracted_image_" ++ natStr (idx + 1) ++ "." ++ ext, saved) := by
  have hsplit : splitColon1 (blockBody bidx fn (base64Encode bs))
      = some (labelChars bidx fn, '\n' :: base64Encode bs) := by
    have he : blockBody bidx fn (base64Encode bs)
        = labelChars bidx fn ++ ':' :: ('\n' :: base64Encode bs) := rfl
    rw [he]
    exact splitColon1_append _ _ (fun hc => ((labelChars_clean bidx fn hfn ':' hc).1) rfl)
  have hstrip : pyStrip ('\n' :: base64Encode bs) = base64Encode bs :=
    pyStrip_newline _ (fun ch hch => (base64Encode_no_specials bs hbs ch hch).1)
  unfold processBlock
  rw [hsplit]
  simp only [except_pure, except_bind_ok, hstrip, base64_roundtrip bs hbs, hopen, liftE,
    hext, hsaved]

theorem decodeLoop_bodies (c : Codec) :
    ∀ (items : List (String × List Char)) (bidx idx : Nat) (acc : List (String × List Nat)),
      (∀ it ∈ items, GoodItem c it) →
      ∃ entries : List (String × List Nat),
        decodeLoop c (bodiesFrom bidx items ++ [[]]) idx acc =
          { result := .ok (acc ++ entries),
            written := (acc ++ entries).map (fun e => output_dir ++ "/" ++ e.1)
              ++ [output_dir ++ "/extracted_images.zip"],
            cleanupScheduled := true } ∧
        entries.length = items.length ∧
        (∀ i (hi : i < entries.length) (hit : i < items.length),
          ∃ bs img ext saved,
            (items.get ⟨i, hit⟩).2 = base64Encode bs ∧
            c.imageOpen bs = .ok img ∧ imgFormatExt img.format = .ok ext ∧
            c.saveExt img ext = .ok saved ∧
            entries.get ⟨i, hi⟩
              = ("extracted_image_" ++ natStr (idx + i + 1) ++ "." ++ ext, saved)) := by
  intro items
  induction items with
  | nil =>
    intro bidx idx acc _
    refine ⟨[], ?_, rfl, ?_⟩
    · simp only [bodiesFrom, List.nil_append, decodeLoop, image_not_prefix_nil,
        Bool.false_eq_true, if_false, List.append_nil]
    · intro i hi
      exact absurd hi (by simp)
  | cons it rest ih =>
    intro bidx idx acc hgood
    obtain ⟨hfn, bs, img, ext, saved, hpay, hbs, hbsne, hopen, hext, hsaved⟩ :=
      hgood it (by simp)
    have hpb := processBlock_body c idx bidx it.1.data bs hfn hbs img hopen ext hext saved hsaved
    obtain ⟨entries, hloop, hlen, hnames⟩ :=
      ih (bidx + 1) (idx + 1)
        (acc ++ [("extracted_image_" ++ natStr (idx + 1) ++ "." ++ ext, saved)])
        (fun x hx => hgood x (by simp [hx]))
    refine ⟨("extracted_image_" ++ natStr (idx + 1) ++ "." ++ ext, saved) :: entries,
      ?_, by simp [hlen], ?_⟩
    · simp only [bodiesFrom, List.cons_append, decodeLoop]
      rw [hpay, image_prefix_blockBody]
      simp only [if_true, hpb, List.append_eq]
      rw [hloop]
      simp [List.append_assoc]
    · intro i hi hit
      cases i with
      | zero =>
        exact ⟨bs, img, ext, saved, hpay, hopen, hext, hsaved, rfl⟩
      | succ j =>
        have hj := hnames j (by simpa using hi) (by simpa using hit)
        obtain ⟨bs2, img2, ext2, saved2, h1, h2, h3, h4, h5⟩ := hj
        refine ⟨bs2, img2, ext2, saved2, h1, h2, h3, h4, ?_⟩
        simpa [show idx + 1 + j + 1 = idx + (j + 1) + 1 from by omega] using h5

theorem extract_containerText (c : Codec) (name : String)
    (items : List (String × List Char))
    (hname : ∀ ch ∈ name.data, ch ≠ '\n') (hgood : ∀ it ∈ items, GoodItem c it) :
    ∃ entries : List (String × List Nat),
      extract_images_from_text c (containerText name items) =
        { result := .ok entries,
          written := entries.map (fun e => output_dir ++ "/" ++ e.1)
            ++ [output_dir ++ "/extracted_images.zip"],
          cleanupScheduled := true } ∧
      entries.length = items.length ∧
      (∀ i (hi : i < entries.length) (hit : i < items.length),
        ∃ bs img ext saved,
          (items.get ⟨i, hit⟩).2 = base64Encode bs ∧
          c.imageOpen bs = .ok img ∧ imgFormatExt img.format = .ok ext ∧
          c.saveExt img ext = .ok saved ∧
          entries.get ⟨i, hi⟩ = ("extracted_image_" ++ natStr (i + 2) ++ "." ++ ext, saved)) := by
  have hsafe : sepSafe ("Filename: ".data ++ name.data) = true := by
    apply sepSafe_of_no_newline
    intro ch hch
    rcases List.mem_append.mp hch with hch | hch
    · revert hch
      have : ∀ d ∈ "Filename: ".data, d ≠ '\n' := by decide
      exact this ch
    · exact hname ch hch
  have hsplit : splitDD (containerText name items)
      = ("Filename: ".data ++ name.data) :: (bodiesFrom 0 items ++ [[]]) := by
    have he : containerText name items
        = ("Filename: ".data ++ name.data) ++ '\n' :: '\n' :: blocksFrom 0 items := by
      simp [containerText]
    rw [he, splitDD_sep _ _ hsafe,
      splitDD_blocksFrom items 0 (fun it hit => goodItem_clean c it (hgood it hit))]
  unfold extract_images_from_text
  rw [hsplit]
  have hstep : decodeLoop c (("Filename: ".data ++ name.data) :: (bodiesFrom 0 items ++ [[]])) 0 []
      = decodeLoop c (bodiesFrom 0 items ++ [[]]) 1 [] := by
    simp only [decodeLoop, List.cons_append, startsWithImage_F, Bool.false_eq_true, if_false]
  rw [hstep]
  obtain ⟨entries, hloop, hlen, hnames⟩ := decodeLoop_bodies c items 0 1 [] hgood
  refine ⟨entries, by simpa using hloop, hlen, ?_⟩
  intro i hi hit
  obtain ⟨bs, img, ext, saved, h1, h2, h3, h4, h5⟩ := hnames i hi hit
  refine ⟨bs, img, ext, saved, h1, h2, h3, h4, ?_⟩
  rw [h5]
  have : 1 + i + 1 = i + 2 := by omega
  rw [this]

/-!
## The `PassthroughHeicElseLossless` revision, modelled from the spec

src/base-app.py holds only the `Recompress` revision of the codec; the
spec describes three more revisions of the same module (RawBytesOnly,
LosslessReencode, PassthroughHeicElseLossless) that are part of the
repository but not under src/.  The definitions below model the
passthrough revision from the spec alone.
-/

/-- Modelled from the spec: §4.1 step c for `PassthroughHeicElseLossless` —
HEIC files are never opened by the image codec (their raw bytes are
embedded unchanged); every other file is decoded and re-encoded at full
fidelity in its own format (`LosslessReencode`).  This code is not under
src/. -/
def specEmbedBytes (c : Codec) (file : UploadedFile) : Except Exn (List Nat) :=
  if isHeicUpload file then .ok file.rawBytes
  else
    match c.imageOpen file.rawBytes with
    | .error e => .error (.err e)
    | .ok img =>
      match c.saveLossless img img.format with
      | .error e => .error (.err e)
      | .ok bytes => .ok bytes

/-- Modelled from the spec: §4.1 — the per-file loop of the passthrough
encoder revision: embed bytes per policy, base64, check the cumulative
budget (no quality retry exists for this policy), append the block.  This
code is not under src/. -/
def specEncodeLoop (c : Codec) :
    List UploadedFile → Nat → Nat → List Char → Except Exn (Nat × List Char)
  | [], total, _, text => .ok (total, text)
  | file :: rest, total, idx, text =>
    match specEmbedBytes c file with
    | .error e => .error e
    | .ok bytes =>
      let encoded := base64Encode bytes
      let size := utf8Len encoded
      if total + size > max_total_size then
        .error (.http 400 "exceeds 5MB limit")
      else
        specEncodeLoop c rest (total + size) (idx + 1)
          (text ++ blockText idx file.filename.data encoded)

/-- Modelled from the spec: §4.1 — `encode` under the
`PassthroughHeicElseLossless` policy (count limit, shared container
grammar).  This code is not under src/. -/
def specEncodePassthrough (c : Codec) (files : List UploadedFile)
    (output_file_name : String) : Except Exn (List Char) :=
  if files.length > 10 then .error (.http 400 "too many files")
  else
    match specEncodeLoop c files 0 0
        ("Filename: ".data ++ output_file_name.data ++ ['\n', '\n']) with
    | .error e => .error e
    | .ok t => .ok t.2

/-- Modelled from the spec: §4.2 step 4 — `heic` appears (case-insensitive)
in the block's label text. -/
def labelHasHeic (label : List Char) : Bool :=
  containsSub "heic".data (label.map Char.toLower)

/-- Modelled from the spec: §4.2 step 4 — the detected format, lower-cased,
defaulting to `jpeg` if undetectable. -/
def specExt : Option String → String
  | none => "jpeg"
  | some f => ⟨f.data.map Char.toLower⟩

/-- Modelled from the spec: §4.2 steps 3-4 of the heic-aware decoder
revision — split the block once on the first colon, strip and
base64-decode the payload; a heic-labelled block is written verbatim with
extension `heic` and no codec round-trip, any other block is opened with
the codec only to detect its extension and its bytes are written verbatim
(the spec's preferred, lossless-safe choice).  This code is not under
src/. -/
def specDecodeBlock (c : Codec) (block : List Char) : Except Exn (String × List Nat) :=
  match splitColon1 block with
  | none => .error (.err "not enough values to unpack (expected 2, got 1)")
  | some p =>
    match base64Decode (pyStrip p.2) with
    | none => .error (.err "Incorrect padding")
    | some bytes =>
      if labelHasHeic p.1 then .ok ("heic", bytes)
      else
        match c.imageOpen bytes with
        | .error e => .error (.err e)
        | .ok img => .ok (specExt img.format, bytes)

/-- Modelled from the spec: §4.2 — the decode loop of the heic-aware
revision: split on blank lines, keep the blocks starting with `Image`,
abort on the first failure, return the extracted (extension, bytes) pairs
in order.  This code is not under src/. -/
def specDecodeLoop (c : Codec) : List (List Char) → Except Exn (List (String × List Nat))
  | [] => .ok []
  | block :: rest =>
    if startsWithImage block then
      match specDecodeBlock c block with
      | .error e => .error e
      | .ok entry =>
        match specDecodeLoop c rest with
        | .error e => .error e
        | .ok entries => .ok (entry :: entries)
    else specDecodeLoop c rest

/-- Modelled from the spec: §4.2 — `decode` of the heic-aware revision.
This code is not under src/. -/
def specDecodePassthrough (c : Codec) (content : List Char) :
    Except Exn (List (String × List Nat)) :=
  specDecodeLoop c (splitDD content)

/-- What the spec requires of a valid upload under the passthrough policy:
a filename that survives the label grammar, and content the policy can
embed — raw nonempty bytes for HEIC, and for everything else content the
codec decodes, losslessly re-encodes, and decodes again to the same image
(the spec's full-fidelity contract for `LosslessReencode`). -/
def FileOk (c : Codec) (f : UploadedFile) : Prop :=
  (∀ ch ∈ f.filename.data, ch ≠ ':' ∧ ch ≠ '\n') ∧
  (if isHeicUpload f then (∀ x ∈ f.rawBytes, x < 256) ∧ f.rawBytes ≠ []
   else ∃ img emb,
     c.imageOpen f.rawBytes = .ok img ∧ c.saveLossless img img.format = .ok emb ∧
     (∀ x ∈ emb, x < 256) ∧ emb ≠ [] ∧ c.imageOpen emb = .ok img)

def embPayload (it : String × List Nat) : String × List Char := (it.1, base64Encode it.2)

theorem specEmbedBytes_ok_inv (c : Codec) (f : UploadedFile) (bytes : List Nat)
    (h : specEmbedBytes c f = .ok bytes) :
    (isHeicUpload f = true ∧ bytes = f.rawBytes) ∨
    (isHeicUpload f = false ∧ ∃ img, c.imageOpen f.rawBytes = .ok img ∧
      c.saveLossless img img.format = .ok bytes) := by
  unfold specEmbedBytes at h
  cases hh : isHeicUpload f with
  | true =>
    rw [hh] at h
    simp only [if_true] at h
    exact Or.inl ⟨rfl, ((Except.ok.injEq _ _).mp h).symm⟩
  | false =>
    rw [hh] at h
    simp only [Bool.false_eq_true, if_false] at h
    cases ho : c.imageOpen f.rawBytes with
    | error e => rw [ho] at h; simp at h
    | ok img =>
      rw [ho] at h
      dsimp only at h
      cases hs : c.saveLossless img img.format with
      | error e => rw [hs] at h; simp at h
      | ok b2 =>
        rw [hs] at h
        dsimp only at h
        obtain rfl := (Except.ok.injEq _ _).mp h
        exact Or.inr ⟨rfl, img, rfl, hs⟩

theorem specEncodeLoop_ok (c : Codec) :
    ∀ (files : List UploadedFile) (total idx : Nat) (text : List Char)
      (final : Nat × List Char),
      (∀ f ∈ files, FileOk c f) →
      specEncodeLoop c files total idx text = .ok final →
      ∃ items : List (String × List Nat),
        items.length = files.length ∧
        final.2 = text ++ blocksFrom idx (items.map embPayload) ∧
        (∀ i (hi : i < items.length) (hf : i < files.length),
          (items.get ⟨i, hi⟩).1 = (files.get ⟨i, hf⟩).filename ∧
          specEmbedBytes c (files.get ⟨i, hf⟩) = .ok (items.get ⟨i, hi⟩).2 ∧
          (∀ x ∈ (items.get ⟨i, hi⟩).2, x < 256) ∧ (items.get ⟨i, hi⟩).2 ≠ []) := by
  intro files
  induction files with
  | nil =>
    intro total idx text final _ hok
    simp only [specEncodeLoop] at hok
    obtain rfl := (Except.ok.injEq _ _).mp hok
    refine ⟨[], rfl, by simp [blocksFrom], ?_⟩
    intro i hi
    exact absurd hi (by simp)
  | cons f fs ih =>
    intro total idx text final hfo hok
    simp only [specEncodeLoop] at hok
    cases hemb : specEmbedBytes c f with
    | error e => rw [hemb] at hok; simp at hok
    | ok bytes =>
      rw [hemb] at hok
      simp only at hok
      by_cases hover : total + utf8Len (base64Encode bytes) > max_total_size
      · rw [if_pos hover] at hok; simp at hok
      · rw [if_neg hover] at hok
        obtain ⟨items, hlen, htext, hprov⟩ :=
          ih (total + utf8Len (base64Encode bytes)) (idx + 1)
            (text ++ blockText idx f.filename.data (base64Encode bytes)) final
            (fun x hx => hfo x (by simp [hx])) hok
        have hbnd : (∀ x ∈ bytes, x < 256) ∧ bytes ≠ [] := by
          have hf0 := hfo f (by simp)
          rcases specEmbedBytes_ok_inv c f bytes hemb with ⟨hh, rfl⟩ | ⟨hh, img, ho, hs⟩
          · have := hf0.2
            rw [hh] at this
            simpa using this
          · have := hf0.2
            rw [hh] at this
            simp only [Bool.false_eq_true, if_false] at this
            obtain ⟨img0, emb0, ho0, hs0, hb0, hne0, _⟩ := this
            obtain rfl : img0 = img := by
              have := ho0.symm.trans ho
              exact (Except.ok.injEq _ _).mp this
            obtain rfl : emb0 = bytes := by
              have := hs0.symm.trans hs
              exact (Except.ok.injEq _ _).mp this
            exact ⟨hb0, hne0⟩
        refine ⟨(f.filename, bytes) :: items, by simp [hlen], ?_, ?_⟩
        · rw [htext]
          simp [blocksFrom, embPayload, blockText, List.append_assoc]
        · intro i hi hf
          cases i with
          | zero => exact ⟨rfl, hemb, hbnd.1, hbnd.2⟩
          | succ j => exact hprov j (by simpa using hi) (by simpa using hf)

theorem specDecodeBlock_body (c : Codec) (bidx : Nat) (fn : List Char) (bs : List Nat)
    (hfn : ∀ ch ∈ fn, ch ≠ ':' ∧ ch ≠ '\n') (hbs : ∀ x ∈ bs, x < 256) :
    specDecodeBlock c (blockBody bidx fn (base64Encode bs)) =
      if labelHasHeic (labelChars bidx fn) then .ok ("heic", bs)
      else
        match c.imageOpen bs with
        | .error e => .error (.err e)
        | .ok img => .ok (specExt img.format, bs) := by
  have hsplit : splitColon1 (blockBody bidx fn (base64Encode bs))
      = some (labelChars bidx fn, '\n' :: base64Encode bs) := by
    have he : blockBody bidx fn (base64Encode bs)
        = labelChars bidx fn ++ ':' :: ('\n' :: base64Encode bs) := rfl
    rw [he]
    exact splitColon1_append _ _ (fun hc => ((labelChars_clean bidx fn hfn ':' hc).1) rfl)
  have hstrip : pyStrip ('\n' :: base64Encode bs) = base64Encode bs :=
    pyStrip_newline _ (fun ch hch => (base64Encode_no_specials bs hbs ch hch).1)
  unfold specDecodeBlock
  rw [hsplit]
  simp only [hstrip, base64_roundtrip bs hbs]

theorem specDecodeLoop_items (c : Codec) :
    ∀ (items : List (String × List Nat)) (bidx : Nat),
      (∀ it ∈ items, (∀ ch ∈ it.1.data, ch ≠ ':' ∧ ch ≠ '\n') ∧
        (∀ x ∈ it.2, x < 256) ∧ it.2 ≠ []) →
      (∀ i (hi : i < items.length),
        labelHasHeic (labelChars (bidx + i) (items.get ⟨i, hi⟩).1.data) = false →
        ∃ img, c.imageOpen (items.get ⟨i, hi⟩).2 = .ok img) →
      ∃ out : List (String × List Nat),
        specDecodeLoop c (bodiesFrom bidx (items.map embPayload) ++ [[]]) = .ok out ∧
        out.length = items.length ∧
        (∀ i (ho : i < out.length) (hi : i < items.length),
          (labelHasHeic (labelChars (bidx + i) (items.get ⟨i, hi⟩).1.data) = true →
            out.get ⟨i, ho⟩ = ("heic", (items.get ⟨i, hi⟩).2)) ∧
          (labelHasHeic (labelChars (bidx + i) (items.get ⟨i, hi⟩).1.data) = false →
            ∃ img, c.imageOpen (items.get ⟨i, hi⟩).2 = .ok img ∧
              out.get ⟨i, ho⟩ = (specExt img.format, (items.get ⟨i, hi⟩).2))) := by
  intro items
  induction items with
  | nil =>
    intro bidx _ _
    refine ⟨[], ?_, rfl, ?_⟩
    · simp only [List.map_nil, bodiesFrom, List.nil_append, specDecodeLoop,
        image_not_prefix_nil, Bool.false_eq_true, if_false]
    · intro i hi
      exact absurd hi (by simp)
  | cons it rest ih =>
    intro bidx hclean hopen
    obtain ⟨hfn, hbs, hbsne⟩ := hclean it (by simp)
    obtain ⟨out', hloop, hlen, hprops⟩ :=
      ih (bidx + 1) (fun x hx => hclean x (by simp [hx]))
        (fun j hj hl => by
          have := hopen (j + 1) (by simpa using hj)
          simp only [List.get_cons_succ] at this
          exact this (by rw [show bidx + (j + 1) = bidx + 1 + j from by omega]; exact hl))
    have hblock := specDecodeBlock_body c bidx it.1.data it.2 hfn hbs
    by_cases hl : labelHasHeic (labelChars bidx it.1.data) = true
    · refine ⟨("heic", it.2) :: out', ?_, by simp [hlen], ?_⟩
      · simp only [List.map_cons, bodiesFrom, embPayload, List.cons_append, specDecodeLoop,
          image_prefix_blockBody, if_true]
        rw [hblock, if_pos hl]
        dsimp only
        simp only [List.append_eq]
        rw [hloop]
      · intro i ho hi
        cases i with
        | zero =>
          constructor
          · intro _; rfl
          · intro hfalse
            have hfalse2 : labelHasHeic (labelChars bidx it.1.data) = false := hfalse
            exact absurd hl (by simp [hfalse2])
        | succ j =>
          have hj := hprops j (by simpa using ho) (by simpa using hi)
          have harith : bidx + 1 + j = bidx + (j + 1) := by omega
          rw [harith] at hj
          simpa using hj
    · have hl2 : labelHasHeic (labelChars bidx it.1.data) = false := by
        simpa using hl
      obtain ⟨img, himg⟩ := hopen 0 (by simp) hl2
      refine ⟨(specExt img.format, it.2) :: out', ?_, by simp [hlen], ?_⟩
      · simp only [List.map_cons, bodiesFrom, embPayload, List.cons_append, specDecodeLoop,
          image_prefix_blockBody, if_true]
        rw [hblock, if_neg hl]
        rw [show c.imageOpen it.2 = Except.ok img from himg]
        dsimp only
        simp only [List.append_eq]
        rw [hloop]
      · intro i ho hi
        cases i with
        | zero =>
          constructor
          · intro htrue
            exact absurd htrue (by simp [hl2])
          · intro _
            exact ⟨img, himg, rfl⟩
        | succ j =>
          have hj := hprops j (by simpa using ho) (by simpa using hi)
          have harith : bidx + 1 + j = bidx + (j + 1) := by omega
          rw [harith] at hj
          simpa using hj

theorem specEncodePassthrough_ok_inv (c : Codec) (files : List UploadedFile) (name : String)
    (text : List Char) (hfiles : ∀ f ∈ files, FileOk c f)
    (hok : specEncodePassthrough c files name = .ok text) :
    ∃ items : List (String × List Nat),
      items.length = files.length ∧
      text = containerText name (items.map embPayload) ∧
      (∀ i (hi : i < items.length) (hf : i < files.length),
        (items.get ⟨i, hi⟩).1 = (files.get ⟨i, hf⟩).filename ∧
        specEmbedBytes c (files.get ⟨i, hf⟩) = .ok (items.get ⟨i, hi⟩).2 ∧
        (∀ x ∈ (items.get ⟨i, hi⟩).2, x < 256) ∧ (items.get ⟨i, hi⟩).2 ≠ []) := by
  unfold specEncodePassthrough at hok
  by_cases hn : files.length > 10
  · rw [if_pos hn] at hok; simp at hok
  · rw [if_neg hn] at hok
    cases hloop : specEncodeLoop c files 0 0
        ("Filename: ".data ++ name.data ++ ['\n', '\n']) with
    | error e => rw [hloop] at hok; simp at hok
    | ok t =>
      rw [hloop] at hok
      obtain rfl := (Except.ok.injEq _ _).mp hok
      obtain ⟨items, hlen, htext, hprov⟩ := specEncodeLoop_ok c files 0 0 _ t hfiles hloop
      refine ⟨items, hlen, ?_, hprov⟩
      rw [htext]
      simp [containerText, List.append_assoc]

/-- Claim C1 (spec-modelled; the passthrough/lossless revision is not under
src/): for every batch of at most 10 valid images the passthrough encoder
accepts, decoding the produced container recovers, for each HEIC entry,
the extension `heic` and bytes identical to the original upload (the codec
is never consulted for them), and for every other entry the losslessly
re-encoded bytes, which the codec opens back to exactly the image the
original decodes to — pixel-identical and format-preserved (the extension
is the original's detected format, lower-cased). -/
theorem passthrough_roundtrip_main (c : Codec) (files : List UploadedFile) (name : String)
    (text : List Char)
    (henc : specEncodePassthrough c files name = .ok text)
    (hname : ∀ ch ∈ name.data, ch ≠ '\n')
    (hfiles : ∀ f ∈ files, FileOk c f)
    (hlabels : ∀ i (hi : i < files.length),
      labelHasHeic (labelChars i (files.get ⟨i, hi⟩).filename.data)
        = isHeicUpload (files.get ⟨i, hi⟩)) :
    ∃ out : List (String × List Nat),
      specDecodePassthrough c text = .ok out ∧
      out.length = files.length ∧
      ∀ i (ho : i < out.length) (hf : i < files.length),
        (isHeicUpload (files.get ⟨i, hf⟩) = true →
          out.get ⟨i, ho⟩ = ("heic", (files.get ⟨i, hf⟩).rawBytes)) ∧
        (isHeicUpload (files.get ⟨i, hf⟩) = false →
          ∃ img emb,
            c.imageOpen (files.get ⟨i, hf⟩).rawBytes = .ok img ∧
            c.saveLossless img img.format = .ok emb ∧
            out.get ⟨i, ho⟩ = (specExt img.format, emb) ∧
            c.imageOpen emb = .ok img) := by
  obtain ⟨items, hlen, htext, hprov⟩ :=
    specEncodePassthrough_ok_inv c files name text hfiles henc
  -- filenames of items match files, so label hygiene transfers
  have hfn : ∀ i (hi : i < items.length),
      ∀ ch ∈ (items.get ⟨i, hi⟩).1.data, ch ≠ ':' ∧ ch ≠ '\n' := by
    intro i hi ch hch
    have hf : i < files.length := by omega
    have := (hprov i hi hf).1
    rw [this] at hch
    exact (hfiles (files.get ⟨i, hf⟩) (files.get_mem _ _)).1 ch hch
  have hclean : ∀ it ∈ items,
      (∀ ch ∈ it.1.data, ch ≠ ':' ∧ ch ≠ '\n') ∧ (∀ x ∈ it.2, x < 256) ∧ it.2 ≠ [] := by
    intro it hit
    obtain ⟨⟨i, hi⟩, rfl⟩ := List.mem_iff_get.mp hit
    have hf : i < files.length := by omega
    exact ⟨hfn i hi, (hprov i hi hf).2.2.1, (hprov i hi hf).2.2.2⟩
  have hopen : ∀ i (hi : i < items.length),
      labelHasHeic (labelChars (0 + i) (items.get ⟨i, hi⟩).1.data) = false →
      ∃ img, c.imageOpen (items.get ⟨i, hi⟩).2 = .ok img := by
    intro i hi hl
    have hf : i < files.length := by omega
    obtain ⟨hfname, hemb, _, _⟩ := hprov i hi hf
    rw [Nat.zero_add, hfname] at hl
    have hlab := hlabels i hf
    rw [hlab] at hl
    rcases specEmbedBytes_ok_inv c _ _ hemb with ⟨hh, _⟩ | ⟨hh, img1, ho1, hs1⟩
    · rw [hh] at hl; simp at hl
    · have hfo := (hfiles (files.get ⟨i, hf⟩) (files.get_mem _ _)).2
      rw [hh] at hfo
      simp only [Bool.false_eq_true, if_false] at hfo
      obtain ⟨img0, emb0, ho0, hs0, _, _, hre0⟩ := hfo
      obtain rfl : img0 = img1 := (Except.ok.injEq _ _).mp (ho0.symm.trans ho1)
      obtain rfl : emb0 = (items.get ⟨i, hi⟩).2 :=
        (Except.ok.injEq _ _).mp (hs0.symm.trans hs1)
      exact ⟨img0, hre0⟩
  -- decode the container
  have hsafe : sepSafe ("Filename: ".data ++ name.data) = true := by
    apply sepSafe_of_no_newline
    intro ch hch
    rcases List.mem_append.mp hch with hch | hch
    · revert hch
      have : ∀ d ∈ "Filename: ".data, d ≠ '\n' := by decide
      exact this ch
    · exact hname ch hch
  have hcleanMap : ∀ it ∈ items.map embPayload, CleanItem it := by
    intro it hit
    obtain ⟨it0, hit0, rfl⟩ := List.mem_map.mp hit
    obtain ⟨h1, h2, h3⟩ := hclean it0 hit0
    exact ⟨h1, it0.2, rfl, h2, h3⟩
  have hsplit : splitDD (containerText name (items.map embPayload))
      = ("Filename: ".data ++ name.data) :: (bodiesFrom 0 (items.map embPayload) ++ [[]]) := by
    have he : containerText name (items.map embPayload)
        = ("Filename: ".data ++ name.data)
          ++ '\n' :: '\n' :: blocksFrom 0 (items.map embPayload) := by
      simp [containerText]
    rw [he, splitDD_sep _ _ hsafe, splitDD_blocksFrom _ 0 hcleanMap]
  obtain ⟨out, hloop, holen, hoprops⟩ := specDecodeLoop_items c items 0 hclean hopen
  refine ⟨out, ?_, by omega, ?_⟩
  · rw [htext]
    unfold specDecodePassthrough
    rw [hsplit]
    have hstep : specDecodeLoop c
        ((("Filename: ".data ++ name.data)) :: (bodiesFrom 0 (items.map embPayload) ++ [[]]))
        = specDecodeLoop c (bodiesFrom 0 (items.map embPayload) ++ [[]]) := by
      simp only [specDecodeLoop, List.cons_append, startsWithImage_F,
        Bool.false_eq_true, if_false]
    rw [hstep, hloop]
  · intro i ho hf
    have hi : i < items.length := by omega
    have hoo : i < out.length := ho
    obtain ⟨hfname, hemb, hbnd, hne⟩ := hprov i hi hf
    have hlab := hlabels i hf
    have hprops := hoprops i hoo hi
    rw [Nat.zero_add, hfname, hlab] at hprops
    constructor
    · intro hht
      rcases specEmbedBytes_ok_inv c _ _ hemb with ⟨_, hraw⟩ | ⟨hh, _, _, _⟩
      · rw [← hraw]
        exact hprops.1 hht
      · rw [hh] at hht; simp at hht
    · intro hhf
      rcases specEmbedBytes_ok_inv c _ _ hemb with ⟨hh, _⟩ | ⟨hh, img1, ho1, hs1⟩
      · rw [hh] at hhf; simp at hhf
      · obtain ⟨img, himg, hout⟩ := hprops.2 hhf
        have hfo := (hfiles (files.get ⟨i, hf⟩) (files.get_mem _ _)).2
        rw [hh] at hfo
        simp only [Bool.false_eq_true, if_false] at hfo
        obtain ⟨img0, emb0, ho0, hs0, _, _, hre0⟩ := hfo
        obtain rfl : img0 = img1 := (Except.ok.injEq _ _).mp (ho0.symm.trans ho1)
        obtain rfl : emb0 = (items.get ⟨i, hi⟩).2 :=
          (Except.ok.injEq _ _).mp (hs0.symm.trans hs1)
        obtain rfl : img = img0 := (Except.ok.injEq _ _).mp (himg.symm.trans hre0)
        exact ⟨img, (items.get ⟨i, hi⟩).2, ho1, hs1, hout, hre0⟩

/-!
## Concrete codecs for witnesses and counterexamples

`toyCodec` is a small invertible stand-in for PIL: a byte stream is a
format tag followed by the pixel bytes.  `bigCodec` and `fatCodec` always
produce fixed-size output, to drive the encoder against the 5 MB budget.
-/

def toyFmt : Nat → Option String
  | 0 => some "PNG"
  | 1 => some "JPEG"
  | 2 => none
  | 3 => some ""
  | _ => some "PNG"

def toyTag (f : Option String) : Nat :=
  if f = some "PNG" then 0
  else if f = some "JPEG" then 1
  else if f = none then 2
  else if f = some "" then 3
  else 0

def toySaveTag (f : Option String) : Nat := if f = some "PNG" then 0 else 1

def toyCodec : Codec where
  imageOpen bs :=
    match bs with
    | [] => .error "cannot identify image file"
    | t :: rest => .ok ⟨toyFmt t, rest⟩
  save img _ _ := .ok (toySaveTag img.format :: img.pixels.map (· % 256))
  thumbnail img _ := img
  openHeic bs :=
    match bs with
    | [] => .error "Input is not a HEIF or AVIF file"
    | t :: rest => .ok ⟨toyFmt t, rest⟩
  saveExt img _ := .ok img.pixels
  saveLossless img _ := .ok (toyTag img.format :: img.pixels)

def bigCodec : Codec where
  imageOpen _ := .ok ⟨some "JPEG", []⟩
  save _ _ _ := .ok (List.replicate 3932163 0)
  thumbnail img _ := img
  openHeic _ := .ok ⟨some "JPEG", []⟩
  saveExt img _ := .ok img.pixels
  saveLossless img _ := .ok img.pixels

def fatCodec : Codec where
  imageOpen _ := .ok ⟨some "JPEG", []⟩
  save _ _ _ := .ok (List.replicate 3932160 0)
  thumbnail img _ := img
  openHeic _ := .ok ⟨some "JPEG", []⟩
  saveExt img _ := .ok img.pixels
  saveLossless img _ := .ok img.pixels

/-!
## Claim C8
-/

/-- Claim C8: an encode request with more than 10 files fails with the
`ValidationError` (HTTP 400, "You can upload a maximum of 10 files.")
before any file is read or processed: the result is this constant error for
EVERY codec and EVERY file list of that length, so no upload can influence
the outcome or cause a side effect. -/
theorem count_limit_rejects_before_processing (c : Codec) (files : List UploadedFile)
    (output_file_name : String) (h : files.length > 10) :
    convert_embed_images c files output_file_name
      = .error (.http 400 "You can upload a maximum of 10 files.") := by
  unfold convert_embed_images
  rw [if_pos h]

/-- Witness for C8 at a concrete batch of 11 files. -/
theorem count_limit_rejects_before_processing_witness :
    (List.replicate 11 (⟨"a.png", "image/png", [0]⟩ : UploadedFile)).length > 10 ∧
    convert_embed_images toyCodec (List.replicate 11 ⟨"a.png", "image/png", [0]⟩) "out"
      = .error (.http 400 "You can upload a maximum of 10 files.") :=
  ⟨by decide,
    count_limit_rejects_before_processing toyCodec _ "out" (by decide)⟩

/-!
## Claim C4
-/

/-- Claim C4: under the `Recompress` policy the quality loop is a linear
search over the qualities 85, 80, ..., 15, 10 (step 5, floor 10 inclusive):
it returns the encoding at the FIRST quality `q` in that order with
`total_size_so_far + size_of_this_encoding ≤ 5242880` — the comparison uses
the full running total, never a decremented remainder — and the
floor-quality (10) encoding when no quality fits.  The search starts at 85:
`processFile` invokes `quality_search ... 85` afresh for every image, so no
quality state carries over between images. -/
theorem recompress_quality_search_spec (c : Codec) (image : PILImage)
    (format : Option String) (total_size : Nat) (bytes : Nat → List Nat)
    (hsave : ∀ q, c.save image format q = .ok (bytes q)) :
    quality_search c image format total_size 85 =
      match ([85, 80, 75, 70, 65, 60, 55, 50, 45, 40, 35, 30, 25, 20, 15, 10].find?
          (fun q => decide (total_size + utf8Len (base64Encode (bytes q)) ≤ max_total_size))) with
      | some q => .ok (base64Encode (bytes q), utf8Len (base64Encode (bytes q)), q)
      | none => .ok (base64Encode (bytes 10), utf8Len (base64Encode (bytes 10)), 10) :=
  quality_search_from_85 c image format total_size bytes hsave

/-- Witness for C4: a small image fits immediately, so the search answers
at quality 85. -/
theorem recompress_quality_search_spec_witness :
    quality_search toyCodec ⟨some "PNG", [5]⟩ (some "PNG") 0 85
      = .ok (base64Encode [0, 5], utf8Len (base64Encode [0, 5]), 85) := by
  have h := recompress_quality_search_spec toyCodec ⟨some "PNG", [5]⟩ (some "PNG") 0
    (fun _ => [0, 5]) (fun _ => rfl)
  rw [h]
  decide

/-!
## Evaluating the encoder at concrete inputs
-/

theorem liftE_ok {α : Type} (a : α) : liftE (Except.ok a) = (Except.ok a : Except Exn α) := rfl

theorem utf8Len_nil : utf8Len [] = 0 := rfl

theorem utf8Len_cons (c : Char) (l : List Char) :
    utf8Len (c :: l) = c.utf8Size + utf8Len l := by
  simp [utf8Len]

theorem utf8Len_append (a b : List Char) : utf8Len (a ++ b) = utf8Len a + utf8Len b := by
  simp [utf8Len]

theorem toy_quality_search :
    quality_search toyCodec ⟨some "PNG", [1]⟩ (some "PNG") 0 85
      = .ok ("AAE=".data, 4, 85) := by
  rw [quality_search_from_85 toyCodec ⟨some "PNG", [1]⟩ (some "PNG") 0 (fun _ => [0, 1])
    (fun _ => rfl)]
  decide

theorem toy_processFile :
    processFile toyCodec 0 0 ⟨"a.png", "image/png", [0, 1]⟩
      = .ok (4, blockText 0 "a.png".data "AAE=".data) := by
  unfold processFile
  rw [show openUpload toyCodec ⟨"a.png", "image/png", [0, 1]⟩
      = .ok (⟨some "PNG", [1]⟩, some "PNG") from rfl]
  rw [except_bind_ok]
  dsimp only
  rw [show toyCodec.thumbnail ⟨some "PNG", [1]⟩ 800 = ⟨some "PNG", [1]⟩ from rfl]
  rw [toy_quality_search, liftE_ok, except_bind_ok]
  dsimp only
  rw [if_neg (by decide : ¬((0:Nat) + 4 > max_total_size))]
  rfl

theorem toy_encode_single :
    convert_embed_images toyCodec [⟨"a.png", "image/png", [0, 1]⟩] "f"
      = .ok "Filename: f\n\nImage 1 (a.png):\nAAE=\n\n".data := by
  unfold convert_embed_images
  rw [if_neg (by decide :
    ¬(([(⟨"a.png", "image/png", [0, 1]⟩ : UploadedFile)]).length > 10))]
  simp only [encodeLoop, toy_processFile]
  decide

/-!
## Claim C7
-/

/-- Claim C7: every successful encode returns exactly the documented
grammar: `Filename: {name}` then a blank line, then for each uploaded file
in order the block `Image {i} ({filename}):`, a newline, the base64
payload, and a blank line — nothing else, with a trailing blank line after
the last block (`containerText` spells out that exact text). -/
theorem encode_container_grammar (c : Codec) (files : List UploadedFile) (name : String)
    (text : List Char) (hok : convert_embed_images c files name = .ok text) :
    ∃ items : List (String × List Char),
      items.length = files.length ∧
      items.map Prod.fst = files.map UploadedFile.filename ∧
      text = containerText name items := by
  obtain ⟨_, items, hlen, htext, _, hprov⟩ := convert_ok_inv c files name text hok
  refine ⟨items, hlen, ?_, htext⟩
  apply List.ext_get (by simp [hlen])
  intro i h1 h2
  simp only [List.get_eq_getElem, List.getElem_map]
  have := (hprov i (by simpa using h1) (by simpa using h2)).1
  simpa [List.get_eq_getElem] using this

/-- Witness for C7 at a concrete single-file encode. -/
theorem encode_container_grammar_witness :
    ∃ items : List (String × List Char),
      items.length = ([(⟨"a.png", "image/png", [0, 1]⟩ : UploadedFile)]).length ∧
      items.map Prod.fst
        = [(⟨"a.png", "image/png", [0, 1]⟩ : UploadedFile)].map UploadedFile.filename ∧
      "Filename: f\n\nImage 1 (a.png):\nAAE=\n\n".data = containerText "f" items :=
  encode_container_grammar toyCodec [⟨"a.png", "image/png", [0, 1]⟩] "f" _ toy_encode_single

/-!
## Claim C3 (a bug in the source)
-/

theorem quality_search_const_floor (c : Codec) (image : PILImage) (format : Option String)
    (total_size : Nat) (L : List Nat) (n : Nat)
    (hsave : ∀ q, c.save image format q = .ok L)
    (hlen : utf8Len (base64Encode L) = n)
    (hbig : max_total_size < total_size + n) :
    quality_search c image format total_size 85 = .ok (base64Encode L, n, 10) := by
  rw [quality_search_from_85 c image format total_size (fun _ => L) hsave]
  have hfind : ([85, 80, 75, 70, 65, 60, 55, 50, 45, 40, 35, 30, 25, 20, 15, 10].find?
      (fun q => decide
        (total_size + utf8Len (base64Encode ((fun _ => L) q)) ≤ max_total_size))) = none := by
    rw [List.find?_eq_none]
    intro x _
    simp only [decide_eq_true_eq, hlen]
    omega
  rw [hfind]
  simp only [hlen]

theorem quality_search_const_fit (c : Codec) (image : PILImage) (format : Option String)
    (total_size : Nat) (L : List Nat) (n : Nat)
    (hsave : ∀ q, c.save image format q = .ok L)
    (hlen : utf8Len (base64Encode L) = n)
    (hfit : total_size + n ≤ max_total_size) :
    quality_search c image format total_size 85 = .ok (base64Encode L, n, 85) := by
  rw [quality_search_from_85 c image format total_size (fun _ => L) hsave]
  have h85 : (fun q => decide
      (total_size + utf8Len (base64Encode ((fun _ => L) q)) ≤ max_total_size)) 85 = true := by
    simp only [decide_eq_true_eq, hlen]
    omega
  have hfind : ([85, 80, 75, 70, 65, 60, 55, 50, 45, 40, 35, 30, 25, 20, 15, 10].find?
      (fun q => decide
        (total_size + utf8Len (base64Encode ((fun _ => L) q)) ≤ max_total_size))) = some 85 :=
    List.find?_cons_of_pos _ h85
  rw [hfind]
  simp only [hlen]

theorem big_size : utf8Len (base64Encode (List.replicate 3932163 0)) = 5242884 := by
  rw [utf8Len_base64Encode]
  · simp only [List.length_replicate]
  · intro x hx
    have := List.eq_of_mem_replicate hx
    omega

theorem big_quality_search :
    quality_search bigCodec ⟨some "JPEG", []⟩ (some "JPEG") 0 85
      = .ok (base64Encode (List.replicate 3932163 0), 5242884, 10) :=
  quality_search_const_floor bigCodec ⟨some "JPEG", []⟩ (some "JPEG") 0
    (List.replicate 3932163 0) 5242884 (fun _ => rfl) big_size
    (by norm_num [max_total_size])

theorem big_processFile :
    processFile bigCodec 0 0 ⟨"a.jpg", "image/jpeg", [0]⟩
      = .error (.http 400
          "Cannot embed images without exceeding 5 MB limit. Try uploading fewer images or reducing their sizes.") := by
  unfold processFile
  rw [show openUpload bigCodec ⟨"a.jpg", "image/jpeg", [0]⟩
      = .ok (⟨some "JPEG", []⟩, some "JPEG") from rfl]
  rw [except_bind_ok]
  dsimp only
  rw [show bigCodec.thumbnail ⟨some "JPEG", []⟩ 800 = ⟨some "JPEG", []⟩ from rfl]
  rw [big_quality_search, liftE_ok, except_bind_ok]
  dsimp only
  rw [if_pos (by norm_num [max_total_size] : (0:Nat) + 5242884 > max_total_size)]

theorem encode_single_err (c : Codec) (fl : UploadedFile) (name : String) (e : Exn)
    (h : processFile c 0 0 fl = .error e) :
    convert_embed_images c [fl] name
      = .error (.http 400
          ("Cannot process image file: " ++ fl.filename ++ ". Error: " ++ exnStr e)) := by
  unfold convert_embed_images
  rw [if_neg (by simp : ¬(([fl] : List UploadedFile).length > 10))]
  simp only [encodeLoop, h]

theorem encode_single_ok (c : Codec) (fl : UploadedFile) (name : String) (sz : Nat)
    (payload : List Char)
    (h : processFile c 0 0 fl = .ok (sz, blockText 0 fl.filename.data payload)) :
    convert_embed_images c [fl] name = .ok (containerText name [(fl.filename, payload)]) := by
  unfold convert_embed_images
  rw [if_neg (by simp : ¬(([fl] : List UploadedFile).length > 10))]
  simp only [encodeLoop, h]
  simp only [containerText, blocksFrom, blockText, List.append_nil, List.append_assoc]

/-- Claim C3 (code bug): when even the floor quality cannot fit the budget,
line 88 raises the 5 MB `HTTPException` — but it does so INSIDE the `try`,
so the blanket `except Exception` at line 97 catches it and re-raises it
wrapped in the per-file `"Cannot process image file: ..."` message (with
`str(e)` rendering the original as `400: ...`).  The size-limit message
therefore never surfaces on its own, contrary to the claim; the request
does still fail with HTTP 400 and no partial container. -/
theorem size_limit_error_is_wrapped :
    convert_embed_images bigCodec [⟨"a.jpg", "image/jpeg", [0]⟩] "out"
      = .error (.http 400
          "Cannot process image file: a.jpg. Error: 400: Cannot embed images without exceeding 5 MB limit. Try uploading fewer images or reducing their sizes.") := by
  rw [encode_single_err bigCodec ⟨"a.jpg", "image/jpeg", [0]⟩ "out" _ big_processFile]
  decide

/-!
## Claim C10
-/

theorem fat_size : utf8Len (base64Encode (List.replicate 3932160 0)) = 5242880 := by
  rw [utf8Len_base64Encode]
  · simp only [List.length_replicate]
  · intro x hx
    have := List.eq_of_mem_replicate hx
    omega

theorem fat_quality_search :
    quality_search fatCodec ⟨some "JPEG", []⟩ (some "JPEG") 0 85
      = .ok (base64Encode (List.replicate 3932160 0), 5242880, 85) :=
  quality_search_const_fit fatCodec ⟨some "JPEG", []⟩ (some "JPEG") 0
    (List.replicate 3932160 0) 5242880 (fun _ => rfl) fat_size
    (by norm_num [max_total_size])

theorem fat_processFile :
    processFile fatCodec 0 0 ⟨"a", "image/jpeg", [0]⟩
      = .ok (5242880, blockText 0 "a".data (base64Encode (List.replicate 3932160 0))) := by
  unfold processFile
  rw [show openUpload fatCodec ⟨"a", "image/jpeg", [0]⟩
      = .ok (⟨some "JPEG", []⟩, some "JPEG") from rfl]
  rw [except_bind_ok]
  dsimp only
  rw [show fatCodec.thumbnail ⟨some "JPEG", []⟩ 800 = ⟨some "JPEG", []⟩ from rfl]
  rw [fat_quality_search, liftE_ok, except_bind_ok]
  dsimp only
  rw [if_neg (by norm_num [max_total_size] : ¬((0:Nat) + 5242880 > max_total_size))]
  rfl

theorem fat_encode :
    convert_embed_images fatCodec [⟨"a", "image/jpeg", [0]⟩] "f"
      = .ok (containerText "f" [("a", base64Encode (List.replicate 3932160 0))]) :=
  encode_single_ok fatCodec ⟨"a", "image/jpeg", [0]⟩ "f" 5242880
    (base64Encode (List.replicate 3932160 0)) fat_processFile

/-- Claim C10: the 5 MB budget counts ONLY the UTF-8 length of each block's
base64 payload (`image_size = len(encoded_image.encode('utf-8'))` at line
80, summed into `total_size`); the header line, the block labels and the
blank-line separators are not counted.  So every successful encode keeps
the payload total within 5,242,880 bytes, while the full returned container
text can exceed 5,242,880 bytes. -/
theorem budget_counts_payload_only :
    (∀ (c : Codec) (files : List UploadedFile) (name : String) (text : List Char),
      convert_embed_images c files name = .ok text →
      ∃ items : List (String × List Char),
        items.length = files.length ∧ text = containerText name items ∧
        payloadSizes items ≤ max_total_size) ∧
    (∃ (c : Codec) (files : List UploadedFile) (name : String) (text : List Char)
        (items : List (String × List Char)),
      convert_embed_images c files name = .ok text ∧
      text = containerText name items ∧ payloadSizes items ≤ max_total_size ∧
      utf8Len text > max_total_size) := by
  constructor
  · intro c files name text hok
    obtain ⟨_, items, hlen, htext, hsz, _⟩ := convert_ok_inv c files name text hok
    exact ⟨items, hlen, htext, hsz⟩
  · refine ⟨fatCodec, [⟨"a", "image/jpeg", [0]⟩], "f",
      containerText "f" [("a", base64Encode (List.replicate 3932160 0))],
      [("a", base64Encode (List.replicate 3932160 0))], fat_encode, rfl, ?_, ?_⟩
    · simp only [payloadSizes, List.map_cons, List.map_nil, List.sum_cons, List.sum_nil,
        fat_size, max_total_size]
      norm_num
    · simp only [containerText, blocksFrom, blockText, blockBody, labelChars,
        List.append_nil, utf8Len_append, utf8Len_cons, fat_size, max_total_size]
      decide

/-!
## Claim C2
-/

/-- Claim C2 counterexample: a container produced from a single upload
decodes to ONE archive entry, but that entry is named
`extracted_image_2.png`, not `extracted_image_1.png`: the decoder numbers
entries by their position in the blank-line split, where position 0 is the
`Filename:` header — so numbering starts at 2 and `extracted_image_1.*`
never exists. -/
theorem extract_numbering_counterexample :
    convert_embed_images toyCodec [⟨"a.png", "image/png", [0, 1]⟩] "f"
      = .ok "Filename: f\n\nImage 1 (a.png):\nAAE=\n\n".data ∧
    (extract_images_from_text toyCodec
        "Filename: f\n\nImage 1 (a.png):\nAAE=\n\n".data).result
      = .ok [("extracted_image_2.png", [1])] ∧
    ("extracted_image_2.png" : String) ≠ "extracted_image_1.png" :=
  ⟨toy_encode_single, by decide, by decide⟩

/-- Claim C2 amended: decoding a container produced from n ≤ 10 uploads
yields exactly n files, and the file derived from uploaded file i (1-based)
is the archive entry named `extracted_image_{i+1}.{ext}` — the numbers are
contiguous but start at 2, because the decoder's index counts every piece
of the blank-line split and the `Filename:` header occupies index 0. -/
theorem extract_numbering_shifted (c : Codec) (files : List UploadedFile) (name : String)
    (text : List Char)
    (henc : convert_embed_images c files name = .ok text)
    (hname : ∀ ch ∈ name.data, ch ≠ '\n')
    (hfn : ∀ f ∈ files, ∀ ch ∈ f.filename.data, ch ≠ ':' ∧ ch ≠ '\n')
    (hdec : ∀ (img : PILImage) (fmt : Option String) (q : Nat) (bs : List Nat),
      c.save img fmt q = .ok bs →
      (∀ x ∈ bs, x < 256) ∧ bs ≠ [] ∧
      ∃ img2 ext sv, c.imageOpen bs = .ok img2 ∧ imgFormatExt img2.format = .ok ext ∧
        c.saveExt img2 ext = .ok sv) :
    ∃ (items : List (String × List Char)) (entries : List (String × List Nat)),
      items.length = files.length ∧
      text = containerText name items ∧
      (∀ i (hi : i < items.length) (hf : i < files.length),
        (items.get ⟨i, hi⟩).1 = (files.get ⟨i, hf⟩).filename) ∧
      (extract_images_from_text c text).result = .ok entries ∧
      entries.length = files.length ∧
      (∀ i (hi : i < entries.length) (hit : i < items.length),
        ∃ bs img ext sv,
          (items.get ⟨i, hit⟩).2 = base64Encode bs ∧
          c.imageOpen bs = .ok img ∧ imgFormatExt img.format = .ok ext ∧
          c.saveExt img ext = .ok sv ∧
          entries.get ⟨i, hi⟩ = ("extracted_image_" ++ natStr (i + 2) ++ "." ++ ext, sv)) := by
  obtain ⟨hlen10, items, hlen, htext, hsz, hprov⟩ := convert_ok_inv c files name text henc
  have hgood : ∀ it ∈ items, GoodItem c it := by
    intro it hit
    obtain ⟨⟨i, hi⟩, rfl⟩ := List.mem_iff_get.mp hit
    have hf : i < files.length := by omega
    obtain ⟨hfst, bs, q2, img, fmt, hsave, hpay⟩ := hprov i hi hf
    obtain ⟨hbnd, hne, img2, ext, sv, hopen2, hext2, hsv2⟩ := hdec img fmt q2 bs hsave
    refine ⟨?_, bs, img2, ext, sv, hpay, hbnd, hne, hopen2, hext2, hsv2⟩
    rw [hfst]
    exact hfn (files.get ⟨i, hf⟩) (files.get_mem _ _)
  obtain ⟨entries, hrec, hlen2, hnames⟩ := extract_containerText c name items hname hgood
  refine ⟨items, entries, hlen, htext,
    (fun i hi hf => (hprov i hi hf).1), ?_, by omega, ?_⟩
  · rw [htext, hrec]
  · intro i hi hit
    exact hnames i hi hit

/-- Witness for the amended C2 at a concrete single-file round trip. -/
theorem extract_numbering_shifted_witness :
    ∃ (items : List (String × List Char)) (entries : List (String × List Nat)),
      items.length = ([(⟨"a.png", "image/png", [0, 1]⟩ : UploadedFile)]).length ∧
      ("Filename: f\n\nImage 1 (a.png):\nAAE=\n\n".data : List Char)
        = containerText "f" items ∧
      (∀ i (hi : i < items.length)
          (hf : i < ([(⟨"a.png", "image/png", [0, 1]⟩ : UploadedFile)]).length),
        (items.get ⟨i, hi⟩).1
          = (([(⟨"a.png", "image/png", [0, 1]⟩ : UploadedFile)]).get ⟨i, hf⟩).filename) ∧
      (extract_images_from_text toyCodec
          "Filename: f\n\nImage 1 (a.png):\nAAE=\n\n".data).result = .ok entries ∧
      entries.length = ([(⟨"a.png", "image/png", [0, 1]⟩ : UploadedFile)]).length ∧
      (∀ i (hi : i < entries.length) (hit : i < items.length),
        ∃ bs img ext sv,
          (items.get ⟨i, hit⟩).2 = base64Encode bs ∧
          toyCodec.imageOpen bs = .ok img ∧ imgFormatExt img.format = .ok ext ∧
          toyCodec.saveExt img ext = .ok sv ∧
          entries.get ⟨i, hi⟩ = ("extracted_image_" ++ natStr (i + 2) ++ "." ++ ext, sv)) := by
  have hdec : ∀ (img : PILImage) (fmt : Option String) (q : Nat) (bs : List Nat),
      toyCodec.save img fmt q = .ok bs →
      (∀ x ∈ bs, x < 256) ∧ bs ≠ [] ∧
      ∃ img2 ext sv, toyCodec.imageOpen bs = .ok img2 ∧ imgFormatExt img2.format = .ok ext ∧
        toyCodec.saveExt img2 ext = .ok sv := by
    intro img fmt q bs h
    have hbs : bs = toySaveTag img.format :: img.pixels.map (· % 256) :=
      ((Except.ok.injEq _ _).mp h).symm
    subst hbs
    refine ⟨?_, by simp, ?_⟩
    · intro x hx
      rcases List.mem_cons.mp hx with rfl | hx
      · unfold toySaveTag
        split <;> omega
      · obtain ⟨y, _, rfl⟩ := List.mem_map.mp hx
        omega
    · by_cases hf : img.format = some "PNG"
      · refine ⟨⟨some "PNG", img.pixels.map (· % 256)⟩, "png",
          img.pixels.map (· % 256), ?_, rfl, rfl⟩
        simp [toyCodec, toySaveTag, toyFmt, hf]
      · refine ⟨⟨some "JPEG", img.pixels.map (· % 256)⟩, "jpeg",
          img.pixels.map (· % 256), ?_, rfl, rfl⟩
        simp [toyCodec, toySaveTag, toyFmt, hf]
  exact extract_numbering_shifted toyCodec [⟨"a.png", "image/png", [0, 1]⟩] "f" _
    toy_encode_single (by decide) (by decide) hdec

/-!
## Claim C5
-/

/-- Claim C5 counterexample: the decoder in src/base-app.py has NO special
case for HEIC.  A block labelled `Image 1 (pic.heic):` with payload bytes
`[0, 7, 7]` is base64-decoded, OPENED with the image codec, re-encoded, and
written as `extracted_image_2.png` with bytes `[7, 7]`: the extension is
not `.heic` and the bytes are not the original `[0, 7, 7]`. -/
theorem heic_block_counterexample :
    (extract_images_from_text toyCodec
        "Filename: f\n\nImage 1 (pic.heic):\nAAcH\n\n".data).result
      = .ok [("extracted_image_2.png", [7, 7])] ∧
    ("extracted_image_2.png" : String) ≠ "extracted_image_2.heic" ∧
    base64Decode "AAcH".data = some [0, 7, 7] ∧
    ([7, 7] : List Nat) ≠ [0, 7, 7] :=
  ⟨by decide, by decide, by decide, by decide⟩

/-- Claim C5 amended: the src decoder treats every retained block alike —
heic-labelled or not — as shown by this inversion: ANY successfully
extracted entry was produced by base64-decoding the payload, opening the
bytes with the codec, deriving the extension from the DETECTED format (the
label is never consulted for `heic`), and re-saving through the codec;
bytes are never written verbatim and the extension is never forced to
`.heic`.  The spec's verbatim-`.heic` path belongs to a revision that is
not under src/. -/
theorem heic_block_codec_path (c : Codec) (idx : Nat) (block : List Char)
    (entry : String × List Nat) (hok : processBlock c idx block = .ok entry) :
    ∃ label payload bytes img ext saved,
      splitColon1 block = some (label, payload) ∧
      base64Decode (pyStrip payload) = some bytes ∧
      c.imageOpen bytes = .ok img ∧
      imgFormatExt img.format = .ok ext ∧
      c.saveExt img ext = .ok saved ∧
      entry = ("extracted_image_" ++ natStr (idx + 1) ++ "." ++ ext, saved) := by
  unfold processBlock at hok
  cases hsp : splitColon1 block with
  | none =>
    simp only [hsp, except_bind_err] at hok
    exact Except.noConfusion hok
  | some p =>
    obtain ⟨label, payload⟩ := p
    simp only [hsp, except_pure, except_bind_ok] at hok
    cases hbd : base64Decode (pyStrip payload) with
    | none =>
      simp only [hbd, except_bind_err] at hok
      exact Except.noConfusion hok
    | some bytes =>
      simp only [hbd, except_pure, except_bind_ok] at hok
      obtain ⟨img, hi, hok2⟩ := except_bind_ok_inv hok
      obtain ⟨ext, he, hok3⟩ := except_bind_ok_inv hok2
      obtain ⟨saved, hsv, hok4⟩ := except_bind_ok_inv hok3
      exact ⟨label, payload, bytes, img, ext, saved, rfl, hbd, liftE_ok_inv hi, he,
        liftE_ok_inv hsv, ((Except.ok.injEq _ _).mp hok4).symm⟩

/-- Witness for the amended C5 at a concrete heic-labelled block. -/
theorem heic_block_codec_path_witness :
    ∃ label payload bytes img ext saved,
      splitColon1 "Image 1 (pic.heic):\nAAcH".data = some (label, payload) ∧
      base64Decode (pyStrip payload) = some bytes ∧
      toyCodec.imageOpen bytes = .ok img ∧
      imgFormatExt img.format = .ok ext ∧
      toyCodec.saveExt img ext = .ok saved ∧
      (("extracted_image_2.png" : String), ([7, 7] : List Nat))
        = ("extracted_image_" ++ natStr (1 + 1) ++ "." ++ ext, saved) :=
  heic_block_codec_path toyCodec 1 "Image 1 (pic.heic):\nAAcH".data
    ("extracted_image_2.png", [7, 7]) (by decide)

/-!
## Claim C6
-/

/-- Claim C6 counterexample: on a container whose SECOND image block holds
malformed base64 (`AAA`), the decode aborts with the per-image error — but
the message says `image 3` (split position + 1; the header shifts every
index), not the block's index 2; and on this error path NOTHING is cleaned
up: the first extracted file is still on disk and no cleanup task was
scheduled (line 141 runs only after a successful zip). -/
theorem malformed_b64_counterexample :
    (extract_images_from_text toyCodec
        "Filename: f\n\nImage 1 (a.png):\nAQ==\n\nImage 2 (b.png):\nAAA\n\n".data).result
      = .error (.http 400 "Error processing image 3: Incorrect padding") ∧
    (extract_images_from_text toyCodec
        "Filename: f\n\nImage 1 (a.png):\nAQ==\n\nImage 2 (b.png):\nAAA\n\n".data).written
      = ["extracted_images/extracted_image_2.jpeg"] ∧
    (extract_images_from_text toyCodec
        "Filename: f\n\nImage 1 (a.png):\nAQ==\n\nImage 2 (b.png):\nAAA\n\n".data).cleanupScheduled
      = false ∧
    ("Error processing image 3: Incorrect padding" : String)
      ≠ "Error processing image 2: Incorrect padding" :=
  ⟨by decide, by decide, by decide, by decide⟩

def isOkB {α : Type} : Except Exn α → Bool
  | .ok _ => true
  | .error _ => false

theorem decodeLoop_cleanup (c : Codec) :
    ∀ (blocks : List (List Char)) (idx : Nat) (acc : List (String × List Nat)),
      (decodeLoop c blocks idx acc).cleanupScheduled
        = isOkB (decodeLoop c blocks idx acc).result := by
  intro blocks
  induction blocks with
  | nil => intro idx acc; rfl
  | cons b rest ih =>
    intro idx acc
    simp only [decodeLoop]
    by_cases hp : startsWithImage b = true
    · rw [if_pos hp]
      cases hpb : processBlock c idx b with
      | error e => rfl
      | ok entry => exact ih (idx + 1) (acc ++ [entry])
    · rw [if_neg hp]
      exact ih (idx + 1) acc

/-- Claim C6 amended: a malformed payload aborts the whole decode with the
per-image HTTP 400 error (no archive is produced), whose index is the
block's split position + 1 — one more than the image number whenever the
`Filename:` header is present — and cleanup of the working directory is
scheduled ONLY when the decode succeeds: on every error exit the
already-extracted files and the directory are left in place. -/
theorem cleanup_only_after_success (c : Codec) (content : List Char) :
    (extract_images_from_text c content).cleanupScheduled
      = isOkB (extract_images_from_text c content).result :=
  decodeLoop_cleanup c (splitDD content) 0 []

/-!
## Claim C9
-/

/-- Claim C9 counterexample: a block whose bytes the codec opens but whose
format attribute is missing (`None`) does NOT fall back to `jpeg`:
`img.format.lower()` raises `AttributeError`, which the per-image handler
wraps — the decode fails instead of defaulting. -/
theorem format_none_counterexample :
    (extract_images_from_text toyCodec
        "Filename: f\n\nImage 1 (a.png):\nAgc=\n\n".data).result
      = .error (.http 400
          "Error processing image 2: AttributeError: NoneType object has no attribute lower") :=
  by decide

theorem imgFormatExt_empty : imgFormatExt (some "") = .ok "jpeg" := by decide

/-- Claim C9 amended: in `img_format = img.format.lower() or "jpeg"` the
`jpeg` default applies ONLY when the detected format is the empty string
(the sole falsy value `lower()` can produce); when the format attribute is
missing (`None`) the block fails with the wrapped `AttributeError` rather
than defaulting; any other format becomes the lower-cased extension. -/
theorem format_default_empty_only (c : Codec) (idx : Nat) (block : List Char)
    (label payload : List Char) (bytes : List Nat) (img : PILImage)
    (hsp : splitColon1 block = some (label, payload))
    (hb : base64Decode (pyStrip payload) = some bytes)
    (hopen : c.imageOpen bytes = .ok img) :
    (img.format = none →
      processBlock c idx block
        = .error (.err "AttributeError: NoneType object has no attribute lower")) ∧
    (img.format = some "" → ∀ saved, c.saveExt img "jpeg" = .ok saved →
      processBlock c idx block
        = .ok ("extracted_image_" ++ natStr (idx + 1) ++ ".jpeg", saved)) ∧
    (∀ s saved, img.format = some s →
      (⟨s.data.map Char.toLower⟩ : String) ≠ "" →
      c.saveExt img ⟨s.data.map Char.toLower⟩ = .ok saved →
      processBlock c idx block
        = .ok ("extracted_image_" ++ natStr (idx + 1) ++ "."
            ++ (⟨s.data.map Char.toLower⟩ : String), saved)) := by
  refine ⟨?_, ?_, ?_⟩
  · intro hfmt
    unfold processBlock
    rw [hsp]
    simp only [except_pure, except_bind_ok, except_bind_err, hb, hopen, liftE, hfmt,
      imgFormatExt]
  · intro hfmt saved hsv
    unfold processBlock
    rw [hsp]
    simp only [except_pure, except_bind_ok, hb, hopen, liftE, hfmt, imgFormatExt_empty, hsv]
    simp [String.append_assoc]
  · intro s saved hfmt hne hsv
    unfold processBlock
    rw [hsp]
    simp only [except_pure, except_bind_ok, hb, hopen, liftE, hfmt, imgFormatExt,
      if_neg hne, hsv]

/-- Witness for the amended C9 at a concrete block whose image has no
format attribute. -/
theorem format_default_empty_only_witness :
    (((⟨none, [7]⟩ : PILImage)).format = none →
      processBlock toyCodec 1 "Image 1 (a.png):\nAgc=".data
        = .error (.err "AttributeError: NoneType object has no attribute lower")) ∧
    (((⟨none, [7]⟩ : PILImage)).format = some "" → ∀ saved,
      toyCodec.saveExt ⟨none, [7]⟩ "jpeg" = .ok saved →
      processBlock toyCodec 1 "Image 1 (a.png):\nAgc=".data
        = .ok ("extracted_image_" ++ natStr (1 + 1) ++ ".jpeg", saved)) ∧
    (∀ s saved, ((⟨none, [7]⟩ : PILImage)).format = some s →
      (⟨s.data.map Char.toLower⟩ : String) ≠ "" →
      toyCodec.saveExt ⟨none, [7]⟩ ⟨s.data.map Char.toLower⟩ = .ok saved →
      processBlock toyCodec 1 "Image 1 (a.png):\nAgc=".data
        = .ok ("extracted_image_" ++ natStr (1 + 1) ++ "."
            ++ (⟨s.data.map Char.toLower⟩ : String), saved)) :=
  format_default_empty_only toyCodec 1 "Image 1 (a.png):\nAgc=".data
    "Image 1 (a.png)".data "\nAgc=".data [2, 7] ⟨none, [7]⟩
    (by decide) (by decide) (by decide)

/-!
## Claim C1 witness
-/

/-- Witness for C1: a two-file batch — one HEIC upload, one PNG — through
the passthrough encoder and the heic-aware decoder of the spec-modelled
revision, with the toy codec. -/
theorem passthrough_roundtrip_main_witness :
    ∃ out : List (String × List Nat),
      specDecodePassthrough toyCodec
          "Filename: f\n\nImage 1 (p.heic):\nCQk=\n\nImage 2 (a.png):\nAAU=\n\n".data
        = .ok out ∧
      out.length = ([⟨"p.heic", "image/heic", [9, 9]⟩,
        (⟨"a.png", "image/png", [0, 5]⟩ : UploadedFile)]).length ∧
      ∀ i (ho : i < out.length)
          (hf : i < ([⟨"p.heic", "image/heic", [9, 9]⟩,
            (⟨"a.png", "image/png", [0, 5]⟩ : UploadedFile)]).length),
        (isHeicUpload (([⟨"p.heic", "image/heic", [9, 9]⟩,
            (⟨"a.png", "image/png", [0, 5]⟩ : UploadedFile)]).get ⟨i, hf⟩) = true →
          out.get ⟨i, ho⟩ = ("heic",
            (([⟨"p.heic", "image/heic", [9, 9]⟩,
              (⟨"a.png", "image/png", [0, 5]⟩ : UploadedFile)]).get ⟨i, hf⟩).rawBytes)) ∧
        (isHeicUpload (([⟨"p.heic", "image/heic", [9, 9]⟩,
            (⟨"a.png", "image/png", [0, 5]⟩ : UploadedFile)]).get ⟨i, hf⟩) = false →
          ∃ img emb,
            toyCodec.imageOpen (([⟨"p.heic", "image/heic", [9, 9]⟩,
              (⟨"a.png", "image/png", [0, 5]⟩ : UploadedFile)]).get ⟨i, hf⟩).rawBytes
              = .ok img ∧
            toyCodec.saveLossless img img.format = .ok emb ∧
            out.get ⟨i, ho⟩ = (specExt img.format, emb) ∧
            toyCodec.imageOpen emb = .ok img) := by
  have hfiles : ∀ f ∈ [⟨"p.heic", "image/heic", [9, 9]⟩,
      (⟨"a.png", "image/png", [0, 5]⟩ : UploadedFile)], FileOk toyCodec f := by
    intro f hf
    rcases List.mem_cons.mp hf with rfl | hf
    · refine ⟨by decide, ?_⟩
      rw [if_pos (by decide)]
      exact ⟨by decide, by decide⟩
    · rcases List.mem_cons.mp hf with rfl | hf
      · refine ⟨by decide, ?_⟩
        rw [if_neg (by decide)]
        exact ⟨⟨some "PNG", [5]⟩, [0, 5], rfl, rfl, by decide, by decide, rfl⟩
      · cases hf
  exact passthrough_roundtrip_main toyCodec
    [⟨"p.heic", "image/heic", [9, 9]⟩, ⟨"a.png", "image/png", [0, 5]⟩] "f"
    "Filename: f\n\nImage 1 (p.heic):\nCQk=\n\nImage 2 (a.png):\nAAU=\n\n".data
    (by decide) (by decide) hfiles (by decide)
